import Mathlib

/-!
# Verification of the tbc workers repository

Shallow embedding of the chunked export pipeline, paginated Airtable
fetcher, property normalizers, image pull-through proxy and bounded
worker pool of the `tbc` Cloudflare-workers repository, together with
proofs and refutations of the frozen specification claims.

Conventions of the embedding:
* JS values reaching the data paths are modelled by the inductive `JVal`
  (JSON-ish values).  The JS `undefined` and `null` are collapsed into
  `JVal.null`; every place in the source that distinguishes them
  (`==  null`, `??`, truthiness) treats them identically.
* JS numbers are modelled by `JNum`: `NaN`, the two infinities, or an
  exact rational.  The sources never do arithmetic on the numbers they
  handle (they only parse, compare and copy them), so no floating point
  rounding is observable.
* Strings are Lean `String`s; all string manipulation is done on the
  underlying `List Char` through helper functions defined here, which
  model the exact JS semantics of the string operations appearing in the
  sources (`trim`, the specific regexes used, `split`, padStart, …).
-/

/-! ## JS string helpers -/

/-- JS whitespace (the characters recognised by `String.prototype.trim`
and `\s` that can occur in this data: ASCII whitespace, NBSP, BOM). -/
def wsChar (c : Char) : Bool :=
  c = ' ' || c = '\t' || c = '\n' || c = '\r' || c = '\x0b' || c = '\x0c' ||
  c.val = 0xA0 || c.val = 0xFEFF

def trimLeftL (l : List Char) : List Char := l.dropWhile wsChar

def trimRightL (l : List Char) : List Char := (l.reverse.dropWhile wsChar).reverse

/-- JS `String.prototype.trim`. -/
def jsTrim (s : String) : String := ⟨trimRightL (trimLeftL s.data)⟩

def dedupAcc (seen : List String) : List String → List String
  | [] => []
  | x :: xs => if x ∈ seen then dedupAcc seen xs else x :: dedupAcc (x :: seen) xs

/-- `[...new Set(xs)]` on strings: deduplicate keeping first occurrences,
in insertion order. -/
def dedupFirst (l : List String) : List String := dedupAcc [] l

/-- `Array.prototype.join(sep)` (on a list of strings). -/
def joinSep (sep : String) : List String → String
  | [] => ""
  | [x] => x
  | x :: y :: ys => x ++ sep ++ joinSep sep (y :: ys)

def listStarts : List Char → List Char → Bool
  | _, [] => true
  | [], _ :: _ => false
  | c :: cs, d :: ds => c = d && listStarts cs ds

def listContains (hay needle : List Char) : Bool :=
  match hay with
  | [] => listStarts [] needle
  | _ :: rest => listStarts hay needle || listContains rest needle

/-- JS `s.startsWith(pre)`. -/
def strStarts (s pre : String) : Bool := listStarts s.data pre.data

/-- JS `s.includes(sub)`. -/
def strContains (s sub : String) : Bool := listContains s.data sub.data

def digitChar (d : Nat) : Char :=
  match d with
  | 0 => '0' | 1 => '1' | 2 => '2' | 3 => '3' | 4 => '4'
  | 5 => '5' | 6 => '6' | 7 => '7' | 8 => '8' | _ => '9'

/-- Fuel-driven decimal digit emitter (the fuel makes the function
structurally recursive so that it evaluates by kernel reduction). -/
def natToStrGo : Nat → Nat → List Char → List Char
  | _, 0, acc => acc
  | 0, _, acc => acc
  | fuel + 1, n, acc => natToStrGo fuel (n / 10) (digitChar (n % 10) :: acc)

/-- Decimal rendering of a natural number, as JS `String(n)`. -/
def natToStr (n : Nat) : String :=
  if n = 0 then "0" else ⟨natToStrGo n n []⟩

/-- JS `s.padStart(4, "0")`. -/
def padStart4 (s : String) : String :=
  ⟨List.replicate (4 - s.data.length) '0' ++ s.data⟩

/-! ## JS numbers -/

/-- A JS number: `NaN`, `±Infinity`, or a finite value.  Finite values
are exact rationals; the sources only parse, test and copy numbers, so
float rounding is never observable. -/
inductive JNum where
  | nan
  | inf
  | neginf
  | fin (q : ℚ)
deriving DecidableEq, Repr

def isDigitCh (c : Char) : Bool := '0' ≤ c && c ≤ '9'

def digitsToNat (l : List Char) : Nat := l.foldl (fun a c => 10 * a + (c.toNat - 48)) 0

/-- Exponent suffix of the JS numeric grammar (after `e`/`E`). -/
def parseExp (base : ℚ) (l : List Char) : Option ℚ :=
  let (neg, l2) : Bool × List Char :=
    match l with
    | '+' :: r => (false, r)
    | '-' :: r => (true, r)
    | r => (false, r)
  let ds := l2.takeWhile isDigitCh
  if ds = [] || l2.dropWhile isDigitCh ≠ [] then none
  else some (if neg then base / 10 ^ digitsToNat ds else base * 10 ^ digitsToNat ds)

/-- Unsigned decimal part of the JS numeric grammar:
`digits [. digits] [exp]` or `. digits [exp]`.  Returns `none` for
anything else (hex/octal/binary literals are not modelled; they never
occur in this data). -/
def parseNumCore (l : List Char) : Option ℚ :=
  let intPart := l.takeWhile isDigitCh
  let rest1 := l.dropWhile isDigitCh
  match rest1 with
  | [] => if intPart = [] then none else some (digitsToNat intPart)
  | '.' :: rest2 =>
    let fracPart := rest2.takeWhile isDigitCh
    let rest3 := rest2.dropWhile isDigitCh
    if intPart = [] && fracPart = [] then none
    else
      let base : ℚ := digitsToNat intPart + (digitsToNat fracPart : ℚ) / 10 ^ fracPart.length
      match rest3 with
      | [] => some base
      | e :: rest4 => if e = 'e' || e = 'E' then parseExp base rest4 else none
  | e :: rest2 =>
    if (e = 'e' || e = 'E') && intPart ≠ [] then parseExp (digitsToNat intPart) rest2
    else none

/-- JS `Number(s)` on a string: trims, `"" ↦ 0`, `±Infinity`, decimal
grammar, anything else `NaN`.  (Hex/octal/binary literals are not
modelled; they never occur in this data.) -/
def parseNum (s : String) : JNum :=
  match (jsTrim s).data with
  | [] => .fin 0
  | l =>
    let (neg, body) : Bool × List Char :=
      match l with
      | '-' :: r => (true, r)
      | '+' :: r => (false, r)
      | r => (false, r)
    if body = 'I' :: 'n' :: 'f' :: 'i' :: 'n' :: 'i' :: 't' :: 'y' :: [] then
      (if neg then .neginf else .inf)
    else
      match parseNumCore body with
      | some q => .fin (if neg then -q else q)
      | none => .nan

/-- Smallest `k ≤ 40` with `den ∣ 10^k` (all denominators produced by
the decimal parser divide a power of ten). -/
def findPow10 (den : Nat) : Option Nat :=
  (List.range 41).find? (fun k => 10 ^ k % den = 0)

/-- Decimal rendering of a non-negative rational, as JS prints the
numbers occurring here (exponent notation for extreme magnitudes is not
modelled). -/
def posRatToStr (q : ℚ) : String :=
  match findPow10 q.den with
  | none => natToStr q.num.natAbs ++ "/" ++ natToStr q.den
  | some k =>
    let scaled := q.num.natAbs * (10 ^ k / q.den)
    let ip := scaled / 10 ^ k
    let fr := scaled % 10 ^ k
    if fr = 0 then natToStr ip
    else
      let fd := List.replicate (k - (natToStr fr).data.length) '0' ++ (natToStr fr).data
      let fdTrim := (fd.reverse.dropWhile (· = '0')).reverse
      natToStr ip ++ "." ++ ⟨fdTrim⟩

/-- JS `String(n)` on a number. -/
def numToStr : JNum → String
  | .nan => "NaN"
  | .inf => "Infinity"
  | .neginf => "-Infinity"
  | .fin q => if q < 0 then "-" ++ posRatToStr (-q) else posRatToStr q

/-! ## JS values -/

/-- JSON-ish JS value.  `undefined` is collapsed into `null` (every use
in the sources treats them identically). -/
inductive JVal where
  | null
  | str (s : String)
  | num (n : JNum)
  | bool (b : Bool)
  | arr (xs : List JVal)
  | obj (kvs : List (String × JVal))

/-- Property access `o[k]` on an object's key/value list, `none` =
`undefined`. -/
def jlookup : List (String × JVal) → String → Option JVal
  | [], _ => none
  | (k, v) :: rest, key => if k = key then some v else jlookup rest key

/-- Property access collapsing `undefined` to `null`. -/
def jget (kvs : List (String × JVal)) (key : String) : JVal :=
  (jlookup kvs key).getD .null

/-- JS truthiness. -/
def jsTruthy : JVal → Bool
  | .null => false
  | .str s => s ≠ ""
  | .num n => match n with | .fin q => q ≠ 0 | .nan => false | _ => true
  | .bool b => b
  | .arr _ => true
  | .obj _ => true

mutual
/-- JS `String(v)`.  Arrays join their elements with `","`, where `null`
elements contribute `""`; plain objects print `"[object Object]"`. -/
def jsToString : JVal → String
  | .null => "null"
  | .str s => s
  | .num n => numToStr n
  | .bool b => if b then "true" else "false"
  | .arr xs => joinSep "," (jsToStringArr xs)
  | .obj _ => "[object Object]"

def jsToStringArr : List JVal → List String
  | [] => []
  | .null :: xs => "" :: jsToStringArr xs
  | x :: xs => jsToString x :: jsToStringArr xs
end

/-- `v.email ?? v.name ?? … ?? null` — first key whose value is present
and non-null. -/
def jsCoalesce (kvs : List (String × JVal)) : List String → Option JVal
  | [] => none
  | k :: ks =>
    match jlookup kvs k with
    | some .null => jsCoalesce kvs ks
    | some v => some v
    | none => jsCoalesce kvs ks

/-- JS `Number(v)` coercion (arrays and plain objects coerce through
their string representation, exactly as in JS). -/
def jsNumber : JVal → JNum
  | .null => .fin 0
  | .bool b => .fin (if b then 1 else 0)
  | .num n => n
  | .str s => parseNum s
  | v => parseNum (jsToString v)

/-- `toNum` from the organizations-map workers:
`if (v == null) return NaN; return Number(typeof v === "string" ? v.trim() : v)`. -/
def toNum : JVal → JNum
  | .null => .nan
  | .str s => parseNum (jsTrim s)
  | v => jsNumber v

/-- JS `isFinite` on an already-numeric value. -/
def isFiniteJ : JNum → Bool
  | .fin _ => true
  | _ => false

/-! ## `normalizeValue` (organizations-map workers, part_005/part_007) -/

mutual
/-- `normalizeValue` from the organizations-map workers:
nulls to `""`, arrays dedup-normalize-join with `", "`, objects pick
`email ?? name ?? text ?? value` (else join their normalized values),
primitives `String(v).trim()`. -/
def normalizeValue : JVal → String
  | .null => ""
  | .arr xs => joinSep ", " ((dedupFirst (normalizeValueArr xs)).filter (· ≠ ""))
  | .obj kvs =>
    match jsCoalesce kvs ["email", "name", "text", "value"] with
    | some cand => jsTrim (jsToString cand)
    | none => joinSep ", " ((normalizeValueKVs kvs).filter (· ≠ ""))
  | .str s => jsTrim s
  | .num n => jsTrim (numToStr n)
  | .bool b => jsTrim (jsToString (.bool b))

def normalizeValueArr : List JVal → List String
  | [] => []
  | x :: xs => normalizeValue x :: normalizeValueArr xs

def normalizeValueKVs : List (String × JVal) → List String
  | [] => []
  | (_, v) :: rest => normalizeValue v :: normalizeValueKVs rest
end

/-! ## `cleanDenomination` (part_005) -/

/-- One attempted match of the regex `\s*\([^)]*\)` anchored at the head
of `l`: greedy whitespace, `(`, a run of non-`)` characters, `)`.
Returns the remainder after the match, or `none`. -/
def matchParen (l : List Char) : Option (List Char) :=
  match l.dropWhile wsChar with
  | c :: l2 =>
    if c = '(' then
      match l2.dropWhile (· ≠ ')') with
      | d :: rest => if d = ')' then some rest else none
      | [] => none
    else none
  | [] => none

/-- JS `s.replace(/\s*\([^)]*\)/g, "")`: scan left to right, removing
each match, copying unmatched characters.  (Fuel-driven for kernel
reduction; `stripParenGroups` supplies sufficient fuel, since a match
always consumes at least two characters and a failed attempt advances by
one.) -/
def stripGo : Nat → List Char → List Char
  | _, [] => []
  | 0, l => l
  | fuel + 1, c :: cs =>
    match matchParen (c :: cs) with
    | some rest => stripGo fuel rest
    | none => c :: stripGo fuel cs

def stripParenGroups (l : List Char) : List Char := stripGo l.length l

/-- `cleanDenomination` from part_005: normalize, strip the
parenthetical groups, trim. -/
def cleanDenomination (v : JVal) : String :=
  jsTrim ⟨stripParenGroups (normalizeValue v).data⟩

/-! ## `normalizeTextField` (network-map worker) -/

mutual
/-- The `pushAny` accumulator of `normalizeTextField`
(tbc-workers-monorepo/workers/network-map/src/index.js): returns the
list of strings pushed to `out` in order.  Note the object preference
order is `email ?? text ?? name ?? value`. -/
def ntfPush : JVal → List String
  | .null => []
  | .arr xs => ntfPushArr xs
  | .obj kvs =>
    match jsCoalesce kvs ["email", "text", "name", "value"] with
    | some cand =>
      let t := jsTrim (jsToString cand)
      if t ≠ "" then [t] else []
    | none => ntfPushKVs kvs
  | v =>
    let t := jsTrim (jsToString v)
    if t ≠ "" then [t] else []

def ntfPushArr : List JVal → List String
  | [] => []
  | x :: xs => ntfPush x ++ ntfPushArr xs

def ntfPushKVs : List (String × JVal) → List String
  | [] => []
  | (_, v) :: rest => ntfPush v ++ ntfPushKVs rest
end

/-- `normalizeTextField` from the network-map worker. -/
def normalizeTextField (v : JVal) : String :=
  match v with
  | .null => ""
  | v => joinSep ", " (dedupFirst (ntfPush v))

/-! ## Records and record→feature conversion (organizations workers) -/

/-- One upstream Airtable record: `{id, fields}`.  (Airtable always
returns an object `fields`, so the defensive `r?.fields || {}` of the
sources is the identity here.) -/
structure AirRec where
  id : String
  fields : List (String × JVal)

namespace OrgsMap

/-- `recordsToFeatures` from part_005 (the organizations-map worker with
logo support): drops records without finite coordinates, builds Point
features with normalized properties, `cleanDenomination` for the
denomination, and a `logo` property when `Org Logo` is a non-empty
array. -/
def recordsToFeatures (fieldLat fieldLon origin : String) : List AirRec → List JVal
  | [] => []
  | r :: rs =>
    let f := r.fields
    let lat := toNum (jget f fieldLat)
    let lon := toNum (jget f fieldLon)
    if !isFiniteJ lat || !isFiniteJ lon then recordsToFeatures fieldLat fieldLon origin rs
    else
      let props : List (String × JVal) :=
        [("id", .str r.id),
         ("organization_name", .str (normalizeValue (jget f "Org Name"))),
         ("website", .str (normalizeValue (jget f "Website"))),
         ("category", .str (normalizeValue (jget f "Category"))),
         ("denomination", .str (cleanDenomination (jget f "Denomination"))),
         ("organization_type", .str (normalizeValue (jget f "Org Type"))),
         ("full_address", .str (normalizeValue (jget f "Address"))),
         ("county", .str (normalizeValue (jget f "County"))),
         ("network_name", .str (normalizeValue (jget f "Network Name"))),
         ("logo_background", .str (normalizeValue (jget f "Logo Background")))]
      let props :=
        match jget f "Org Logo" with
        | .arr (_ :: _) => props ++ [("logo", .str (origin ++ "/orgs/img/" ++ r.id ++ "/0"))]
        | _ => props
      JVal.obj
        [("type", .str "Feature"),
         ("geometry", .obj [("type", .str "Point"),
                            ("coordinates", .arr [.num lon, .num lat])]),
         ("properties", .obj props)] :: recordsToFeatures fieldLat fieldLon origin rs

end OrgsMap

namespace OrgsJob

/-- `recordsToFeatures` from part_007 (the checkpointed organizations-map
worker): same conversion without logo support, and the denomination is
only `normalizeValue`d. -/
def recordsToFeatures (fieldLat fieldLon : String) : List AirRec → List JVal
  | [] => []
  | r :: rs =>
    let f := r.fields
    let lat := toNum (jget f fieldLat)
    let lon := toNum (jget f fieldLon)
    if !isFiniteJ lat || !isFiniteJ lon then recordsToFeatures fieldLat fieldLon rs
    else
      JVal.obj
        [("type", .str "Feature"),
         ("geometry", .obj [("type", .str "Point"),
                            ("coordinates", .arr [.num lon, .num lat])]),
         ("properties",
          .obj [("id", .str r.id),
                ("organization_name", .str (normalizeValue (jget f "Org Name"))),
                ("website", .str (normalizeValue (jget f "Website"))),
                ("category", .str (normalizeValue (jget f "Category"))),
                ("denomination", .str (normalizeValue (jget f "Denomination"))),
                ("organization_type", .str (normalizeValue (jget f "Org Type"))),
                ("full_address", .str (normalizeValue (jget f "Address"))),
                ("county", .str (normalizeValue (jget f "County"))),
                ("network_name", .str (normalizeValue (jget f "Network Name")))])]
        :: recordsToFeatures fieldLat fieldLon rs

end OrgsJob

/-! ## network-map worker helpers (index.js) -/

/-- Property access on an arbitrary value (`v?.k`): non-objects give
`undefined`. -/
def jprop : JVal → String → JVal
  | .obj kvs, k => jget kvs k
  | _, _ => .null

def lowerL (l : List Char) : List Char := l.map Char.toLower

/-- The regex test `/^https?:\/\//i`. -/
def hasHttpPre (s : String) : Bool :=
  listStarts (lowerL s.data) "http://".data || listStarts (lowerL s.data) "https://".data

def strEnds (s suf : String) : Bool := listStarts s.data.reverse suf.data.reverse

/-- JS `s.split(p)` for a single-character class: keeps empty pieces. -/
def splitOnPred (p : Char → Bool) : List Char → List (List Char)
  | [] => [[]]
  | c :: rest =>
    if p c then [] :: splitOnPred p rest
    else
      match splitOnPred p rest with
      | h :: t => (c :: h) :: t
      | [] => [[c]]

/-- JS `s.split('","')`. -/
def splitQCQ : List Char → List (List Char)
  | '"' :: ',' :: '"' :: rest => [] :: splitQCQ rest
  | c :: rest =>
    (match splitQCQ rest with
     | h :: t => (c :: h) :: t
     | [] => [[c]])
  | [] => [[]]

/-- JS `u.replace(/^%20+/i, '')`: strip a maximal leading run of the
literal sequence `%20`. -/
def dropPct20 : List Char → List Char
  | '%' :: '2' :: '0' :: rest => dropPct20 rest
  | l => l

namespace NetMap

/-- `pickAttachmentUrl` from the network-map worker: falsy values give
`null`; strings are trimmed and must match `/^https?:\/\//i`; otherwise
the first truthy of `att?.thumbnails?.large?.url`, `att?.url`,
`att?.thumbnails?.full?.url`.  `none` models the `null` result; a `some`
result is always truthy. -/
def pickAttachmentUrl (att : JVal) : Option JVal :=
  if !jsTruthy att then none
  else
    match att with
    | .str s =>
      let t := jsTrim s
      if hasHttpPre t then some (.str t) else none
    | _ =>
      let c1 := jprop (jprop (jprop att "thumbnails") "large") "url"
      let c2 := jprop att "url"
      let c3 := jprop (jprop (jprop att "thumbnails") "full") "url"
      if jsTruthy c1 then some c1
      else if jsTruthy c2 then some c2
      else if jsTruthy c3 then some c3
      else none

/-- `normalizeUrl`: `String(u || '').trim().replace(/^%20+/i, '')`. -/
def normalizeUrl (u : Option JVal) : String :=
  let v : String :=
    match u with
    | some w => if jsTruthy w then jsToString w else ""
    | none => ""
  ⟨dropPct20 (jsTrim v).data⟩

/-- The comma-split leg of `collectPhotoUrls`'s string handling. -/
def cpuSplit (t : String) : List String :=
  let parts : List String :=
    if strContains t "," then (splitOnPred (· = ',') t.data).map (⟨·⟩)
    else [t]
  parts.filterMap fun part =>
    (pickAttachmentUrl (.str (jsTrim part))).map (fun m => normalizeUrl (some m))

mutual
/-- Structure-plus-string weight of a value: recursion depth bound used
as fuel for `collectPhotoUrls` (a JSON parse of a string produces a
value no deeper than the string is long). -/
def jvalWeight : JVal → Nat
  | .null | .num _ | .bool _ => 1
  | .str s => s.data.length + 1
  | .arr xs => jvalWeightArr xs + 1
  | .obj kvs => jvalWeightKVs kvs + 1

def jvalWeightArr : List JVal → Nat
  | [] => 0
  | x :: xs => jvalWeight x + jvalWeightArr xs

def jvalWeightKVs : List (String × JVal) → Nat
  | [] => 0
  | (_, v) :: rest => jvalWeight v + jvalWeightKVs rest
end

/-- The `pushAny` recursion of `collectPhotoUrls` as a depth-first
worklist walk, producing the pushed URL strings in insertion order.
`jp` models `JSON.parse` (`none` = throw).  The fuel (one unit per
visited node) makes the recursion structural; `collectPhotoUrls`
supplies fuel ample for the value's total weight, including anything an
honest JSON parse of an embedded string can produce. -/
def cpuGo (jp : String → Option JVal) : Nat → List JVal → List String
  | 0, _ => []
  | _, [] => []
  | fuel + 1, v :: stack =>
    match v with
    | .null => cpuGo jp fuel stack
    | .arr xs => cpuGo jp fuel (xs ++ stack)
    | .str s =>
      let t := jsTrim s
      if (strStarts t "[" && strEnds t "]") || (strStarts t "\x7b" && strEnds t "\x7d") then
        match jp t with
        | some parsed => cpuGo jp fuel (parsed :: stack)
        | none => cpuSplit t ++ cpuGo jp fuel stack
      else cpuSplit t ++ cpuGo jp fuel stack
    | .obj kvs =>
      if jsTruthy (jget kvs "url") || jsTruthy (jget kvs "thumbnails") then
        (pickAttachmentUrl (.obj kvs)).toList.map (fun m => normalizeUrl (some m))
          ++ cpuGo jp fuel stack
      else cpuGo jp fuel (kvs.map Prod.snd ++ stack)
    | _ => cpuGo jp fuel stack

/-- `collectPhotoUrls` from the network-map worker: recursively collect
attachment URLs into a `Set`, returned in insertion order. -/
def collectPhotoUrls (jp : String → Option JVal) (v : JVal) : List String :=
  dedupFirst (cpuGo jp (2 * jvalWeight v + 1) [v])

/-- `parseGeometry`: `JSON.parse` strings, keep values with a truthy
`type`, else `null`. -/
def parseGeometry (jp : String → Option JVal) (raw : JVal) : Option JVal :=
  if !jsTruthy raw then none
  else
    let g : Option JVal :=
      match raw with
      | .str s => jp s
      | v => some v
    match g with
    | some gv => if jsTruthy (jprop gv "type") then some gv else none
    | none => none

/-! ### `normalizeLeaders` -/

def isQuoteRunCh (c : Char) : Bool := c = ']' || c = '"' || c = '\''

/-- Start alternative of `/^(\[|\]+|"+|'+)|(\[|\]+|"+|'+)$/g`: one `[`
or a maximal homogeneous run of `]`, `"` or `'` at the head. -/
def nlStripStart (l : List Char) : List Char :=
  match l with
  | '[' :: rest => rest
  | c :: _ => if isQuoteRunCh c then l.dropWhile (· = c) else l
  | [] => []

/-- End alternative of the same regex: one `[` or a maximal homogeneous
run of `]`, `"` or `'` at the tail. -/
def nlStripEnd (l : List Char) : List Char :=
  match l.reverse with
  | '[' :: rrest => rrest.reverse
  | c :: _ => if isQuoteRunCh c then (l.reverse.dropWhile (· = c)).reverse else l
  | [] => []

/-- JS `t.replace(/\s+/g, ' ')`. -/
def collapseWsGo (prevWs : Bool) : List Char → List Char
  | [] => []
  | c :: rest =>
    if wsChar c then
      if prevWs then collapseWsGo true rest
      else ' ' :: collapseWsGo true rest
    else c :: collapseWsGo false rest

def collapseWs (l : List Char) : List Char := collapseWsGo false l

def isAlnumCh (c : Char) : Bool :=
  ('a' ≤ c && c ≤ 'z') || ('A' ≤ c && c ≤ 'Z') || ('0' ≤ c && c ≤ '9')

/-- The regex test `/^rec[a-zA-Z0-9]{14}$/`. -/
def recIdTest (l : List Char) : Bool :=
  match l with
  | 'r' :: 'e' :: 'c' :: rest => rest.length = 14 && rest.all isAlnumCh
  | _ => false

/-- `pushClean` of `normalizeLeaders`: stringified, trimmed, bracket/
quote-stripped, whitespace-collapsed; record ids and empties dropped. -/
def pushClean (s : JVal) : List String :=
  match s with
  | .null => []
  | s =>
    let t := jsTrim (jsToString s)
    let t : String := ⟨nlStripEnd (nlStripStart t.data)⟩
    let t := jsTrim ⟨collapseWs t.data⟩
    if recIdTest t.data then []
    else if t ≠ "" then [t] else []

/-- `x.replace(/^"+|"+$/g, '')`. -/
def stripDq (l : List Char) : List Char :=
  let l1 := l.dropWhile (· = '"')
  (l1.reverse.dropWhile (· = '"')).reverse

/-- One element of the array branch of `normalizeLeaders`. -/
def nlArrElem (v : JVal) : List String :=
  match v with
  | .obj kvs =>
    if (jlookup kvs "name").isSome then pushClean (jget kvs "name") else pushClean v
  | .str s =>
    if strContains s "\",\"" then
      ((splitQCQ s.data).map (fun x => pushClean (.str ⟨stripDq x⟩))).flatten
    else pushClean (.str s)
  | v => pushClean v

/-- `normalizeLeaders` from the network-map worker. -/
def normalizeLeaders (jp : String → Option JVal) (value : JVal) : String :=
  let parts : List String :=
    match value with
    | .arr xs => (xs.map nlArrElem).flatten
    | .str s =>
      let t := jsTrim s
      let viaSplit : List String :=
        ((splitOnPred (fun c => c = ';' || c = ',') t.data).map
          (fun x => pushClean (.str ⟨x⟩))).flatten
      if strStarts t "[" && strEnds t "]" then
        match jp t with
        | some (.arr xs) => (xs.map pushClean).flatten
        | some parsed => pushClean parsed
        | none => viaSplit
      else viaSplit
    | .null => []
    | v => pushClean v
  joinSep ", " (dedupFirst parts)

/-- The record→feature loop of `handleRegenerate` in the network-map
worker (index.js lines 122–165): records whose `Polygon` does not parse
to a geometry are skipped; the rest become features with normalized
properties and up to six proxy photo/image URLs. -/
def regenFeatures (jp : String → Option JVal) (origin : String) : List AirRec → List JVal
  | [] => []
  | r :: rs =>
    let f := r.fields
    match parseGeometry jp (jget f "Polygon") with
    | none => regenFeatures jp origin rs
    | some geometry =>
      let leaders := normalizeLeaders jp (jget f "Network Leaders Names")
      let extractedPhotos := collectPhotoUrls jp (jget f "Photo")
      let photoUrls : List String :=
        if extractedPhotos.length > 0 then
          (List.range (extractedPhotos.take 6).length).map
            (fun idx => origin ++ "/networks/img/" ++ r.id ++ "/" ++ natToStr idx)
        else []
      let extractedImages := collectPhotoUrls jp (jget f "Image")
      let imageUrls : List String :=
        if extractedImages.length > 0 then
          (List.range (extractedImages.take 6).length).map
            (fun idx => origin ++ "/networks/image/" ++ r.id ++ "/" ++ natToStr idx)
        else []
      let nameVal : JVal :=
        match jlookup f "Network Name" with
        | some .null | none => .str ""
        | some v => v
      let contactRaw : JVal :=
        match jlookup f "contact email" with
        | some .null | none => jget f "Contact Email"
        | some v => v
      JVal.obj
        [("type", .str "Feature"),
         ("geometry", geometry),
         ("properties",
          .obj [("id", .str r.id),
                ("name", nameVal),
                ("leaders", .str leaders),
                ("contact_email", .str (normalizeTextField contactRaw)),
                ("status", .str (normalizeTextField (jget f "Status"))),
                ("county", .str (normalizeTextField (jget f "County"))),
                ("tags", .str (normalizeTextField (jget f "Tags"))),
                ("number_of_churches", .str (normalizeTextField (jget f "Number of Churches"))),
                ("unify_lead", .str (normalizeTextField (jget f "Unify Lead"))),
                ("photo1", .str (photoUrls.getD 0 "")),
                ("photo2", .str (photoUrls.getD 1 "")),
                ("photo3", .str (photoUrls.getD 2 "")),
                ("photo4", .str (photoUrls.getD 3 "")),
                ("photo5", .str (photoUrls.getD 4 "")),
                ("photo6", .str (photoUrls.getD 5 "")),
                ("photo_count", .num (.fin ((photoUrls.filter (· ≠ "")).length : ℚ))),
                ("image1", .str (imageUrls.getD 0 "")),
                ("image2", .str (imageUrls.getD 1 "")),
                ("image3", .str (imageUrls.getD 2 "")),
                ("image4", .str (imageUrls.getD 3 "")),
                ("image5", .str (imageUrls.getD 4 "")),
                ("image6", .str (imageUrls.getD 5 "")),
                ("image_count", .num (.fin ((imageUrls.filter (· ≠ "")).length : ℚ)))])]
        :: regenFeatures jp origin rs

end NetMap

/-! ## Paginated fetcher (`fetchAirtableChunk`, part_005/part_007) -/

/-- One upstream HTTP response: status, parsed `records`, optional
continuation `offset`, and the raw body text (used in error messages). -/
structure Page where
  status : Nat
  records : List AirRec
  offset : Option String
  body : String

/-- `resp.ok`. -/
def respOk (p : Page) : Bool := 200 ≤ p.status && p.status < 300

/-- JS truthiness of an optional cursor string (`""` is falsy): used for
`if (nextOffset)` / `if (data.offset)` / `startCursor || undefined`. -/
def truthyCursor : Option String → Option String
  | some s => if s = "" then none else some s
  | none => none

/-- The thrown message: `` `Airtable error ${resp.status}: ${await resp.text()}` ``. -/
def airtableErrMsg (p : Page) : String :=
  "Airtable error " ++ natToStr p.status ++ ": " ++ p.body

/-- Successful result of `fetchAirtableChunk`.  The `requests` field is
instrumentation (not in the source): it records the cursor of each
upstream page request actually issued, in order, so that "issues at most
N page requests" is expressible. -/
structure FetchOk where
  records : List AirRec
  nextCursor : Option String
  pagesUsed : Nat
  requests : List (Option String)

/-- The `while (pagesUsed < maxPages)` loop of `fetchAirtableChunk`:
issue a page request, throw on a non-success status, accumulate records,
continue while the response carries a truthy `offset`. -/
def fetchLoop (up : Option String → Page) (tableName : String) :
    Nat → Option String → List AirRec → Nat → List (Option String) → Except String FetchOk
  | 0, cur, acc, used, reqs => .ok ⟨acc, cur, used, reqs⟩
  | fuel + 1, cur, acc, used, reqs =>
    let q := truthyCursor cur
    let p := up q
    if respOk p then
      let acc := acc ++ p.records
      match truthyCursor p.offset with
      | some s => fetchLoop up tableName fuel (some s) acc (used + 1) (reqs ++ [q])
      | none => .ok ⟨acc, none, used + 1, reqs ++ [q]⟩
    else .error (airtableErrMsg p)

/-- `fetchAirtableChunk(env, tableName, fields, {offset, maxPages})`.
`up` models the composite of URL construction and `fetch`; the `fields`
list only feeds the query string and is therefore absorbed into `up`. -/
def fetchAirtableChunk (up : Option String → Page) (tableName : String)
    (_fields : List String) (offset : Option String) (maxPages : Nat) :
    Except String FetchOk :=
  fetchLoop up tableName maxPages offset [] 0 []

/-! ## Checkpointed export job (part_007 `processSingleChunk`,
equivalently the part_005 regenerate route body) -/

/-- The persisted `JobState` checkpoint.  `createdAt`/`updatedAt` are
omitted (observability only, never read). -/
structure JobState where
  jobId : String
  objectKey : String
  tableName : String
  fieldLat : String
  fieldLon : String
  cursor : Option String
  chunkKeys : List String
  chunkCount : Nat
  totalFeatures : Nat

/-- A stored R2 object, by its parsed JSON content. -/
inductive StoreVal where
  | chunkV (fs : List JVal)
  | stateV (st : JobState)
  | docV (fs : List JVal)

/-- The R2 bucket: keys to stored objects. -/
def Store := String → Option StoreVal

def emptyStore : Store := fun _ => none

def putStore (s : Store) (k : String) (v : StoreVal) : Store :=
  fun key => if key = k then some v else s key

def delStore (s : Store) (k : String) : Store :=
  fun key => if key = k then none else s key

/-- `readState`: get and JSON-parse the checkpoint object; a missing or
non-`JobState` object gives `null`. -/
def readState (s : Store) (key : String) : Option JobState :=
  match s key with
  | some (.stateV st) => some st
  | _ => none

/-- `isSafeKey`. -/
def isSafeKey (key : String) : Bool :=
  !strContains key "../" && !strStarts key "/"

/-- `clampPages`: non-finite or non-positive gives 10, else clamp
`Math.floor` into `[1, 20]`. -/
def clampPages (raw : JVal) : Nat :=
  match jsNumber raw with
  | .fin q => if q ≤ 0 then 10 else min 20 (max 1 q.floor.toNat)
  | _ => 10

/-- Worker environment variables used by the job (strings use `""` for
"unset", matching the `||`-defaulting of the source). -/
structure JobEnv where
  ORG_TABLE_NAME : String
  FIELD_LAT : String
  FIELD_LON : String
  ORG_GEOJSON_FILE : String
  AIRTABLE_PAGE_LIMIT : JVal

def orDefault (s dflt : String) : String := if s = "" then dflt else s

/-- `getGeoJsonKey`. -/
def getGeoJsonKey (env : JobEnv) : String :=
  if jsTrim env.ORG_GEOJSON_FILE ≠ "" then jsTrim env.ORG_GEOJSON_FILE
  else "organization_map.geojson"

/-- The JSON request body `{jobId?, cursor?}` (absent and `null`
collapse to `none`). -/
structure Payload where
  jobId : Option String
  cursor : Option String

/-- The JSON success envelopes of the step. -/
inductive StepResp where
  | inProgress (jobId : String) (nextCursor : String) (processed : Nat)
      (totalFeatures : Nat) (pagesUsed : Nat) (objectKey : String)
  | completed (jobId : String) (features : Nat) (objectKey : String)

/-- `payload.jobId || <minted id>`. -/
def jobIdOf (payload : Payload) (minted : String) : String :=
  match payload.jobId with
  | some s => if s ≠ "" then s else minted
  | none => minted

/-- The fresh `JobState` initializer of the step (timestamps omitted). -/
def freshState (jobId objectKey tableName fieldLat fieldLon : String) : JobState :=
  { jobId := jobId, objectKey := objectKey, tableName := tableName,
    fieldLat := fieldLat, fieldLon := fieldLon,
    cursor := none, chunkKeys := [], chunkCount := 0, totalFeatures := 0 }

def stateKeyOf (jobId : String) : String := "orgs/tmp/" ++ jobId ++ ".json"

def chunkKeyOf (jobId : String) (n : Nat) : String :=
  "orgs/tmp/" ++ jobId ++ "/chunk-" ++ padStart4 (natToStr n) ++ ".json"

/-- The finalize fold over `state.chunkKeys`: read each chunk in order,
append parsed arrays (non-arrays are skipped), delete each key that was
present. -/
def collectChunks : Store → List String → Store × List JVal
  | s, [] => (s, [])
  | s, key :: rest =>
    match s key with
    | some (.chunkV arr) =>
      let (s', acc) := collectChunks (delStore s key) rest
      (s', arr ++ acc)
    | some _ => collectChunks (delStore s key) rest
    | none => collectChunks s rest

/-- The finalize branch: gather stored chunks, append this step's
features, publish the FeatureCollection at `targetKey`, delete the
checkpoint. -/
def finalizeStep (store : Store) (st0 : JobState) (features : List JVal)
    (processed : Nat) (jobId targetKey stateKey : String) : Store × StepResp :=
  let sc := collectChunks store st0.chunkKeys
  let allFeatures := sc.2 ++ features
  let store := putStore sc.1 targetKey (.docV allFeatures)
  let store := delStore store stateKey
  (store, .completed jobId (st0.totalFeatures + processed) targetKey)

/-- `processSingleChunk` from part_007 (the same state logic as the
part_005 regenerate route), with `MAX_PAGES` factored out as a parameter
(`processSingleChunk` below reinstates `clampPages`): load or initialize
the checkpoint, fetch up to `maxPages` pages from the resume cursor,
convert, then either persist a chunk + checkpoint (`in_progress`) or
finalize (`completed`).  `minted` models the `crypto.randomUUID()`
fallback used when the payload has no truthy `jobId`. -/
def processChunkCore (up : Option String → Page) (env : JobEnv) (objectKey : String)
    (maxPages : Nat) (payload : Payload) (minted : String) (store : Store) :
    Except String (Store × StepResp) :=
  let tableName := orDefault env.ORG_TABLE_NAME "Master List"
  let fieldLat := orDefault env.FIELD_LAT "Latitude"
  let fieldLon := orDefault env.FIELD_LON "Longitude"
  if !isSafeKey objectKey then .error "Invalid GeoJSON file name"
  else
    let jobId := jobIdOf payload minted
    let stateKey := stateKeyOf jobId
    let st0 := (readState store stateKey).getD
      (freshState jobId objectKey tableName fieldLat fieldLon)
    let targetKey := if st0.objectKey ≠ "" then st0.objectKey else objectKey
    let st0 := { st0 with objectKey := targetKey }
    -- the further load-time repairs of the source (`Array.isArray`,
    -- `Number.isFinite`, `=== undefined`) are identities on this typed
    -- state
    let startCursor :=
      match payload.cursor with
      | some s => some s
      | none => st0.cursor
    match fetchAirtableChunk up tableName
      [fieldLat, fieldLon, "Org Name", "Website", "Category", "Denomination",
       "Org Type", "Address", "County", "Network Name"]
      (truthyCursor startCursor) maxPages with
  | .error e => .error e
  | .ok fr =>
    let features := OrgsJob.recordsToFeatures fieldLat fieldLon fr.records
    let processed := features.length
    match truthyCursor fr.nextCursor with
    | some nc =>
      let chunkKey := chunkKeyOf jobId (st0.chunkCount + 1)
      let store := putStore store chunkKey (.chunkV features)
      let st1 := { st0 with
        cursor := some nc
        chunkCount := st0.chunkCount + 1
        chunkKeys := st0.chunkKeys ++ [chunkKey]
        totalFeatures := st0.totalFeatures + processed }
      let store := putStore store stateKey (.stateV st1)
      .ok (store, .inProgress jobId nc processed st1.totalFeatures fr.pagesUsed targetKey)
    | none => .ok (finalizeStep store st0 features processed jobId targetKey stateKey)

/-- The step exactly as the route runs it: `MAX_PAGES =
clampPages(env.AIRTABLE_PAGE_LIMIT)`. -/
def processSingleChunk (up : Option String → Page) (env : JobEnv) (objectKey : String)
    (payload : Payload) (minted : String) (store : Store) :
    Except String (Store × StepResp) :=
  processChunkCore up env objectKey (clampPages env.AIRTABLE_PAGE_LIMIT) payload minted store

/-- Modelled from the spec (P2 / claim C1): the client protocol "running
the export job to completion via repeated steps with persisted `jobId`"
— invoke the step with body `{jobId}` (no explicit cursor, so each step
resumes from the persisted checkpoint) until it answers `completed`,
returning the final store and the reported feature count. -/
def runSteps (up : Option String → Page) (env : JobEnv) (objectKey : String)
    (maxPages : Nat) (jobId : String) : Nat → Store → Except String (Store × Nat)
  | 0, _ => .error "fuel exhausted"
  | fuel + 1, store =>
    match processChunkCore up env objectKey maxPages ⟨some jobId, none⟩ jobId store with
    | .error e => .error e
    | .ok (store', .completed _ n _) => .ok (store', n)
    | .ok (store', .inProgress _ _ _ _ _ _) =>
      runSteps up env objectKey maxPages jobId fuel store'

/-! ## A reference upstream with a fixed page sequence -/

/-- Opaque continuation token for page `i` (`i ≥ 1`). -/
def encCur (i : Nat) : String := ⟨List.replicate i 'c'⟩

def decCur : Option String → Nat
  | none => 0
  | some s => s.data.length

/-- A deterministic upstream serving a fixed sequence of pages (the
"no upstream data changes between steps" premise): no cursor returns
page 0, token `encCur i` returns page `i`, and the response carries the
next token iff more pages remain. -/
def upOfPages (pages : List (List AirRec)) (q : Option String) : Page :=
  let i := decCur q
  { status := 200
    records := pages.getD i []
    offset := if i + 1 < pages.length then some (encCur (i + 1)) else none
    body := "" }

/-- The `chunkCount = chunkKeys.length` invariant of a checkpoint. -/
def invState (st : JobState) : Prop := st.chunkCount = st.chunkKeys.length

/-- The store left by a step: the returned store on success, the
original store on a thrown error (the step writes nothing before it can
throw). -/
def resultStore (e : Except String (Store × StepResp)) (orig : Store) : Store :=
  match e with
  | .ok (s, _) => s
  | .error _ => orig

/-- Every checkpoint present at `k` satisfies the invariant. -/
def statesOk (s : Store) (k : String) : Prop :=
  ∀ stv, s k = some (.stateV stv) → invState stv

/-! ## Image pull-through proxy (network-map index.js) -/

def airtableErrMsgSB (status : Nat) (body : String) : String :=
  "Airtable error " ++ natToStr status ++ ": " ++ body

namespace NetMap

/-- HTTP response bodies, distinguished by construction site. -/
inductive RBody where
  | textB (s : String)
  | jsonB (v : JVal)
  | bytesB (b : String)

/-- An HTTP response of the worker: status, `Content-Type` header,
body.  (CORS headers, set uniformly by `withCORS`, are not modelled.) -/
structure HResp where
  status : Nat
  ctype : String
  body : RBody

/-- The `text(s, status)` helper. -/
def textResp (s : String) (status : Nat) : HResp :=
  ⟨status, "text/plain; charset=utf-8", .textB s⟩

/-- The `json(obj, status)` helper. -/
def jsonResp (v : JVal) (status : Nat) : HResp :=
  ⟨status, "application/json; charset=utf-8", .jsonB v⟩

/-- `r2Key`: `` `images/${recordId}/${index}/original` ``. -/
def r2Key (recordId : String) (index : JNum) : String :=
  "images/" ++ recordId ++ "/" ++ numToStr index ++ "/original"

/-- `isValidRecordId`: `/^rec[a-zA-Z0-9]{14}$/` on a string. -/
def isValidRecordId : Option String → Bool
  | some s => recIdTest s.data
  | none => false

/-- `isValidIndex`: `Number.isInteger(index) && index >= 0 && index <= 5`. -/
def isValidIndex (i : JNum) : Bool :=
  match i with
  | .fin q => q.den = 1 && 0 ≤ q.num && q.num ≤ 5
  | _ => false

/-- Remove the first occurrence of `pre` (JS `l.replace(pre, '')` with a
string pattern). -/
def replaceFirstL (pre : List Char) : List Char → List Char
  | [] => []
  | c :: rest =>
    if pre ≠ [] && listStarts (c :: rest) pre then (c :: rest).drop pre.length
    else c :: replaceFirstL pre rest

/-- `parseAttachmentPath`: strip the route prefix, split on `/`, drop
empty segments; `recordId = parts[0]`, `index = Number(parts[1] ?? NaN)`. -/
def parseAttachmentPath (pathname preStr : String) : Option String × JNum :=
  let relative : String := ⟨replaceFirstL preStr.data pathname.data⟩
  let parts := ((splitOnPred (· = '/') relative.data).map fun l => (⟨l⟩ : String)).filter (· ≠ "")
  let index :=
    match parts.get? 1 with
    | some s => parseNum s
    | none => JNum.nan
  (parts.get? 0, index)

/-- JS array indexing `xs[i]` with a number index (non-integer or
negative gives `undefined`). -/
def jsIndex (xs : List String) (i : JNum) : Option String :=
  match i with
  | .fin q => if q.den = 1 && 0 ≤ q.num then xs.get? q.num.toNat else none
  | _ => none

/-- The response of `fetchRecordById`'s underlying `fetch`. -/
structure RecResp where
  status : Nat
  record : AirRec
  body : String

/-- The response of the image-bytes `fetch`. -/
structure ImgResp where
  ok : Bool
  status : Nat
  contentType : Option String
  bytes : String

/-- `x || 'image/jpeg'` on an optional header value. -/
def ctOrJpeg (o : Option String) : String :=
  match o with
  | some s => if s ≠ "" then s else "image/jpeg"
  | none => "image/jpeg"

/-- One background cache write scheduled through `ctx.waitUntil`. -/
structure BgWrite where
  key : String
  bytes : String
  contentType : String

/-- A cached R2 image object. -/
structure CacheObj where
  contentType : Option String
  bytes : String

/-- `handleAttachmentProxy`: on an R2 miss, fetch a fresh record (a
non-success status throws, surfacing at the top-level catch), resolve
the attachment URL at `index`, fetch the bytes, serve them with status
200 and schedule — without awaiting — one background cache write.  The
returned write list is the set of `ctx.waitUntil` submissions; the
response value does not depend on their outcome. -/
def handleAttachmentProxy (jp : String → Option JVal) (recResp : RecResp)
    (imgFetch : String → ImgResp) (hasBucket : Bool)
    (recordId : String) (index : JNum) (fieldName : String) :
    Except String (HResp × List BgWrite) :=
  if !(200 ≤ recResp.status && recResp.status < 300) then
    .error (airtableErrMsgSB recResp.status recResp.body)
  else
    let rcd := recResp.record
    let allUrls := collectPhotoUrls jp (jget rcd.fields fieldName)
    let missing : Except String (HResp × List BgWrite) :=
      .ok (textResp (fieldName ++ " URL missing") 404, [])
    match jsIndex allUrls index with
    | none => missing
    | some freshUrl =>
      if freshUrl = "" then missing
      else
        let resp := imgFetch freshUrl
        if !resp.ok then
          .ok (textResp "Failed to fetch image from Airtable" resp.status, [])
        else
          let contentType := ctOrJpeg resp.contentType
          let bg :=
            if hasBucket then [⟨r2Key recordId index, resp.bytes, contentType⟩] else []
          .ok (⟨200, contentType, .bytesB resp.bytes⟩, bg)

/-- The `/networks/img/` route branch (index.js lines 61–78): validate
the path, serve from the images bucket on a hit, else fall through to
the pull-through proxy on field `Photo`. -/
def imgRoute (jp : String → Option JVal) (hasBucket : Bool)
    (bucket : String → Option CacheObj) (recResp : RecResp)
    (imgFetch : String → ImgResp) (pathname : String) :
    Except String (HResp × List BgWrite) :=
  let pr := parseAttachmentPath pathname "/networks/img/"
  if !(isValidRecordId pr.1 && isValidIndex pr.2) then
    .ok (textResp "Bad request" 400, [])
  else
    let rid := pr.1.getD ""
    let proxy := handleAttachmentProxy jp recResp imgFetch hasBucket rid pr.2 "Photo"
    if hasBucket then
      match bucket (r2Key rid pr.2) with
      | some obj =>
        .ok (⟨200, ctOrJpeg obj.contentType, .bytesB obj.bytes⟩, [])
      | none => proxy
    else proxy

/-- The top-level catch of the worker `fetch` handler: any thrown error
becomes a 500 with body `{error: message}`. -/
def topHandle (e : Except String (HResp × List BgWrite)) : HResp × List BgWrite :=
  match e with
  | .ok x => x
  | .error msg => (jsonResp (.obj [("error", .str msg)]) 500, [])

/-- Whether a response body is the JSON error envelope `{error: string}`
(a JSON object with a string `error` member). -/
def isErrorEnvelope (r : HResp) : Bool :=
  match r.body with
  | .jsonB (.obj kvs) =>
    match jlookup kvs "error" with
    | some (.str _) => true
    | _ => false
  | _ => false

end NetMap

/-! ## `withConcurrency` (network-map index.js / part_005)

The JS pool shares a counter `i` between `min(limit, items.length)`
async workers; each worker repeatedly claims `cur = i++` synchronously
(no await between the bound check and the increment) and then awaits
`fn(items[cur])`, storing the result in `results[cur]`, swallowing
exceptions.  The model is a small-step machine: a schedule (an arbitrary
finite word of worker indices) drives interleaving; `fn : α → Option β`
returns `none` when the call throws (in which case the slot is never
written), and the `apps` field is an instrumentation trace of the
indices `fn` has been applied to. -/

inductive WStatus where
  | idle
  | running (cur : Nat)
  | done
deriving DecidableEq, Repr

structure WCState (β : Type) where
  next : Nat
  slots : List (Option β)
  workers : List WStatus
  apps : List Nat

/-- One scheduler step giving control to worker `w`: an idle worker
claims the next index (or exits when exhausted); a running worker's
`fn` call resolves, writing its slot on success. -/
def wcStep {α β : Type} (items : List α) (fn : α → Option β)
    (s : WCState β) (w : Nat) : WCState β :=
  match s.workers.get? w with
  | none => s
  | some .done => s
  | some .idle =>
    if s.next < items.length then
      { s with next := s.next + 1, workers := s.workers.set w (.running s.next) }
    else { s with workers := s.workers.set w .done }
  | some (.running cur) =>
    match items.get? cur with
    | some a =>
      { s with
        workers := s.workers.set w .idle
        slots := match fn a with
                 | some b => s.slots.set cur (some b)
                 | none => s.slots
        apps := s.apps ++ [cur] }
    | none => { s with workers := s.workers.set w .idle, apps := s.apps ++ [cur] }

/-- Initial pool state: `min(limit, items.length)` idle workers, all
result slots unwritten. -/
def wcInit (α : Type) {β : Type} (items : List α) (limit : Nat) : WCState β :=
  { next := 0
    slots := List.replicate items.length none
    workers := List.replicate (min limit items.length) .idle
    apps := [] }

/-- Run `withConcurrency(items, limit, fn)` under a given schedule. -/
def wcRun {α β : Type} (items : List α) (fn : α → Option β) (limit : Nat)
    (sched : List Nat) : WCState β :=
  sched.foldl (wcStep items fn) (wcInit α items limit)

/-- All workers have exited (the `Promise.all` has resolved). -/
def wcDone {β : Type} (s : WCState β) : Prop :=
  ∀ w ∈ s.workers, w = WStatus.done

/-- The index currently claimed by a worker, as a multiset. -/
def wContrib : WStatus → Multiset Nat
  | .running c => {c}
  | _ => 0

/-- The multiset of indices currently claimed by running workers. -/
def runMS : List WStatus → Multiset Nat
  | [] => 0
  | w :: ws => wContrib w + runMS ws

/-- The expected final content of result slot `i`. -/
def slotOf {α β : Type} (items : List α) (fn : α → Option β) (i : Nat) : Option β :=
  match items.get? i with
  | some a => fn a
  | none => none

/-- Execution invariant of the pool: the claimed indices (applied plus
currently running) are exactly `0 … next-1`, each exactly once; applied
slots hold their `fn` outcome; unapplied slots are unwritten; and a
worker only exits once the counter has exhausted the items. -/
def WCInv {α β : Type} (items : List α) (fn : α → Option β) (s : WCState β) : Prop :=
  s.next ≤ items.length
  ∧ s.slots.length = items.length
  ∧ (↑s.apps + runMS s.workers = (↑(List.range s.next) : Multiset Nat))
  ∧ (∀ i ∈ s.apps, s.slots.get? i = some (slotOf items fn i))
  ∧ (∀ i, i ∉ s.apps → i < items.length → s.slots.get? i = some none)
  ∧ (WStatus.done ∈ s.workers → s.next = items.length)

/-! ## Reference values for the resumable-job equivalence (claim C1) -/

/-- The cursor with which page `i` of `upOfPages` is requested: no
cursor for page 0, the token `encCur i` afterwards. -/
def cursorOf (i : Nat) : Option String :=
  if i = 0 then none else some (encCur i)

/-- How many pages one fetch call with budget `maxPages` consumes when
it starts at page `i` of an `L`-page upstream: the budget, capped by the
pages remaining (at least one request is always issued). -/
def pagesEaten (maxPages L i : Nat) : Nat := min maxPages (max 1 (L - i))

def fLatOf (env : JobEnv) : String := orDefault env.FIELD_LAT "Latitude"

def fLonOf (env : JobEnv) : String := orDefault env.FIELD_LON "Longitude"

/-- The features produced from the first `k` pages of the upstream. -/
def featsUpTo (env : JobEnv) (pages : List (List AirRec)) (k : Nat) : List JVal :=
  OrgsJob.recordsToFeatures (fLatOf env) (fLonOf env) ((pages.take k).flatten)

/-- The features of the whole upstream. -/
def featsAll (env : JobEnv) (pages : List (List AirRec)) : List JVal :=
  OrgsJob.recordsToFeatures (fLatOf env) (fLonOf env) pages.flatten

/-- The content of chunk `c` (1-based) when every step eats `N` pages. -/
def chunkFeats (env : JobEnv) (pages : List (List AirRec)) (N c : Nat) : List JVal :=
  OrgsJob.recordsToFeatures (fLatOf env) (fLonOf env)
    (((pages.drop ((c - 1) * N)).take N).flatten)

/-- The checkpoint persisted after `m` in-progress steps of `N` pages
each. -/
def stAfter (env : JobEnv) (pages : List (List AirRec)) (objectKey j : String)
    (N m : Nat) : JobState :=
  { jobId := j, objectKey := objectKey,
    tableName := orDefault env.ORG_TABLE_NAME "Master List",
    fieldLat := fLatOf env, fieldLon := fLonOf env,
    cursor := some (encCur (m * N)),
    chunkKeys := (List.range' 1 m).map (chunkKeyOf j),
    chunkCount := m,
    totalFeatures := (featsUpTo env pages (m * N)).length }

/-- The store contents the job relies on after `m` in-progress steps:
the checkpoint at the state key and the `m` chunk objects. -/
def storeInv (env : JobEnv) (pages : List (List AirRec)) (objectKey j : String)
    (N m : Nat) (s : Store) : Prop :=
  1 ≤ m ∧ m * N < pages.length
  ∧ s (stateKeyOf j) = some (.stateV (stAfter env pages objectKey j N m))
  ∧ ∀ c, 1 ≤ c → c ≤ m → s (chunkKeyOf j c) = some (.chunkV (chunkFeats env pages N c))

/-!
############################################################
## THEOREMS
############################################################
-/

/-! ## Sanity checks (concrete evaluations of the embedding) -/

/-! ## String helper lemmas -/

theorem strData_append (a b : String) : (a ++ b).data = a.data ++ b.data := by
  cases a; cases b; rfl

theorem strMk_data (l : List Char) : (⟨l⟩ : String).data = l := rfl

theorem dropWhile_append_all {p : Char → Bool} {a : List Char} (b : List Char)
    (h : ∀ c ∈ a, p c = true) :
    List.dropWhile p (a ++ b) = List.dropWhile p b := by
  induction a with
  | nil => rfl
  | cons c cs ih =>
    have hc : p c = true := h c (by simp)
    simp only [List.cons_append, List.dropWhile_cons, hc, if_true]
    exact ih (fun d hd => h d (by simp [hd]))

theorem dropWhile_append_left {p : Char → Bool} {a : List Char} (b : List Char)
    (h : List.dropWhile p a ≠ []) :
    List.dropWhile p (a ++ b) = List.dropWhile p a ++ b := by
  induction a with
  | nil => simp at h
  | cons c cs ih =>
    by_cases hc : p c = true
    · simp only [List.dropWhile_cons, hc, if_true] at h
      simp only [List.cons_append, List.dropWhile_cons, hc, if_true]
      exact ih h
    · have hc' : p c = false := by simpa using hc
      simp [List.dropWhile_cons, hc']

theorem dropWhile_cons_of_neg {p : Char → Bool} {c : Char} (l : List Char)
    (h : p c = false) : List.dropWhile p (c :: l) = c :: l := by
  simp [List.dropWhile_cons, h]

/-- A list whose last element fails `p` does not vanish under
`dropWhile p`. -/
theorem dropWhile_ne_nil_of_last {p : Char → Bool} {a : List Char} {c : Char}
    (hmem : c ∈ a) (hc : p c = false) : List.dropWhile p a ≠ [] := by
  intro h
  have := List.dropWhile_eq_nil_iff.mp h c hmem
  rw [hc] at this
  exact Bool.false_ne_true this

theorem sanity_normalizeValue_list :
    normalizeValue (.arr [.str "A", .str "A", .str "B"]) = "A, B" := by rfl

theorem sanity_cleanDenomination :
    cleanDenomination (.str "Baptist (Southern Convention)") = "Baptist" := by rfl

theorem sanity_parseNum : isFiniteJ (toNum (.str " 35.5 ")) = true := by rfl

theorem sanity_parseNum_bad : isFiniteJ (toNum (.str "abc")) = false := by rfl

/-! ## C5: invalid records are dropped, the rest still convert -/

theorem orgsMap_r2f_append (fieldLat fieldLon origin : String) (xs ys : List AirRec) :
    OrgsMap.recordsToFeatures fieldLat fieldLon origin (xs ++ ys)
      = OrgsMap.recordsToFeatures fieldLat fieldLon origin xs
        ++ OrgsMap.recordsToFeatures fieldLat fieldLon origin ys := by
  induction xs with
  | nil => simp [OrgsMap.recordsToFeatures]
  | cons r rs ih =>
    simp only [List.cons_append, OrgsMap.recordsToFeatures]
    split <;> simp [ih]

theorem orgsJob_r2f_append (fieldLat fieldLon : String) (xs ys : List AirRec) :
    OrgsJob.recordsToFeatures fieldLat fieldLon (xs ++ ys)
      = OrgsJob.recordsToFeatures fieldLat fieldLon xs
        ++ OrgsJob.recordsToFeatures fieldLat fieldLon ys := by
  induction xs with
  | nil => simp [OrgsJob.recordsToFeatures]
  | cons r rs ih =>
    simp only [List.cons_append, OrgsJob.recordsToFeatures]
    split <;> simp [ih]

theorem regenFeatures_append (jp : String → Option JVal) (origin : String)
    (xs ys : List AirRec) :
    NetMap.regenFeatures jp origin (xs ++ ys)
      = NetMap.regenFeatures jp origin xs ++ NetMap.regenFeatures jp origin ys := by
  induction xs with
  | nil => simp [NetMap.regenFeatures]
  | cons r rs ih =>
    simp only [List.cons_append, NetMap.regenFeatures]
    split <;> simp [ih]

/-- C5.  For every batch, a record whose latitude or longitude does not
parse to a finite number contributes zero features for the point-based
publisher (part_005 `recordsToFeatures`), a record whose geometry does
not parse contributes zero features for the polygon-based publisher
(network-map `handleRegenerate`), the conversion functions are total (no
error is raised), and every other record of the batch is converted
exactly as it would be without the invalid record. -/
theorem C5_drop_invalid :
    (∀ (fieldLat fieldLon origin : String) (xs ys : List AirRec) (r : AirRec),
      (isFiniteJ (toNum (jget r.fields fieldLat))
        && isFiniteJ (toNum (jget r.fields fieldLon))) = false →
      OrgsMap.recordsToFeatures fieldLat fieldLon origin (xs ++ r :: ys)
        = OrgsMap.recordsToFeatures fieldLat fieldLon origin (xs ++ ys)) ∧
    (∀ (jp : String → Option JVal) (origin : String) (xs ys : List AirRec) (r : AirRec),
      NetMap.parseGeometry jp (jget r.fields "Polygon") = none →
      NetMap.regenFeatures jp origin (xs ++ r :: ys)
        = NetMap.regenFeatures jp origin (xs ++ ys)) := by
  constructor
  · intro fieldLat fieldLon origin xs ys r hbad
    rw [orgsMap_r2f_append, orgsMap_r2f_append]
    have hr : OrgsMap.recordsToFeatures fieldLat fieldLon origin (r :: ys)
        = OrgsMap.recordsToFeatures fieldLat fieldLon origin ys := by
      rw [OrgsMap.recordsToFeatures]
      rcases Bool.and_eq_false_iff.mp hbad with h | h <;> simp [h]
    rw [hr]
  · intro jp origin xs ys r hbad
    rw [regenFeatures_append, regenFeatures_append]
    have hr : NetMap.regenFeatures jp origin (r :: ys)
        = NetMap.regenFeatures jp origin ys := by
      rw [NetMap.regenFeatures, hbad]
    rw [hr]

/-! ## C7: denomination parenthetical stripping -/

theorem dropWhile_len_le (p : Char → Bool) (l : List Char) :
    (l.dropWhile p).length ≤ l.length :=
  (List.dropWhile_suffix p).length_le

theorem trimLeftL_length (l : List Char) : (trimLeftL l).length ≤ l.length :=
  dropWhile_len_le wsChar l

theorem trimRightL_length (l : List Char) : (trimRightL l).length ≤ l.length := by
  unfold trimRightL
  simpa using dropWhile_len_le wsChar l.reverse

theorem trimLeft_eq_self {l : List Char} (h : ∀ c, l.head? = some c → wsChar c = false) :
    trimLeftL l = l := by
  cases l with
  | nil => rfl
  | cons c cs => exact dropWhile_cons_of_neg cs (h c rfl)

theorem trimRight_eq_self {l : List Char} (h : ∀ c, l.getLast? = some c → wsChar c = false) :
    trimRightL l = l := by
  unfold trimRightL
  cases hr : l.reverse with
  | nil =>
    have : l = [] := by simpa using congrArg List.reverse hr
    simp [this]
  | cons c cs =>
    have hc : l.getLast? = some c := by rw [← List.head?_reverse, hr]; rfl
    rw [dropWhile_cons_of_neg cs (h c hc), ← hr, List.reverse_reverse]

theorem jsTrim_fixed {s : String}
    (hh : ∀ c, s.data.head? = some c → wsChar c = false)
    (hl : ∀ c, s.data.getLast? = some c → wsChar c = false) : jsTrim s = s := by
  unfold jsTrim
  rw [trimLeft_eq_self hh, trimRight_eq_self hl]

/-- A list with a whitespace last element shrinks under `trimRightL`. -/
theorem trimRightL_lt_of_ws_last {l : List Char} {c : Char}
    (hc : l.getLast? = some c) (hws : wsChar c = true) :
    (trimRightL l).length < l.length := by
  have hrev : l.reverse.head? = some c := by rw [List.head?_reverse]; exact hc
  cases hr : l.reverse with
  | nil => rw [hr] at hrev; simp at hrev
  | cons d rest =>
    rw [hr] at hrev
    injection hrev with hrev
    have hlen : l.length = rest.length + 1 := by
      have := congrArg List.length hr
      simpa using this
    unfold trimRightL
    rw [hr]
    have : List.dropWhile wsChar (d :: rest) = List.dropWhile wsChar rest := by
      simp [List.dropWhile_cons, hrev ▸ hws]
    rw [this]
    have := dropWhile_len_le wsChar rest
    simp only [List.length_reverse]
    omega

/-- A string unchanged by `trim` has no leading whitespace. -/
theorem jsTrim_eq_head_nonws {s : String} (h : jsTrim s = s) :
    ∀ c, s.data.head? = some c → wsChar c = false := by
  intro c hc
  by_contra hws
  have hws' : wsChar c = true := by simpa using hws
  cases hd : s.data with
  | nil => simp [hd] at hc
  | cons d rest =>
    rw [hd] at hc
    injection hc with hc
    subst hc
    have h1 : trimLeftL s.data = List.dropWhile wsChar rest := by
      rw [hd]; simp [trimLeftL, List.dropWhile_cons, hws']
    have h2 : (jsTrim s).data.length ≤ rest.length := by
      unfold jsTrim
      rw [strMk_data, h1]
      exact le_trans (trimRightL_length _) (dropWhile_len_le _ _)
    rw [h, hd] at h2
    simp only [List.length_cons] at h2
    omega

/-- A string unchanged by `trim` has no trailing whitespace. -/
theorem jsTrim_eq_last_nonws {s : String} (h : jsTrim s = s) :
    ∀ c, s.data.getLast? = some c → wsChar c = false := by
  intro c hc
  by_contra hws
  have hws' : wsChar c = true := by simpa using hws
  have hne : s.data ≠ [] := by
    intro hnil; rw [hnil] at hc; simp at hc
  have hlen : (jsTrim s).data.length < s.data.length := by
    unfold jsTrim
    rw [strMk_data]
    rcases htl : trimLeftL s.data with _ | ⟨e, m⟩
    · show (trimRightL []).length < _
      have : 0 < s.data.length := List.length_pos.mpr hne
      simpa [trimRightL] using this
    · have hsuf : trimLeftL s.data <:+ s.data := List.dropWhile_suffix wsChar
      rw [htl] at hsuf
      obtain ⟨t, ht⟩ := hsuf
      have hlast : (e :: m).getLast? = some c := by
        have h2 := congrArg List.getLast? ht
        rw [List.getLast?_append_of_ne_nil t (by simp)] at h2
        rw [h2, hc]
      have h1 := trimRightL_lt_of_ws_last hlast hws'
      have h2 : (e :: m).length ≤ s.data.length := by
        have h3 := congrArg List.length ht
        simp only [List.length_append] at h3
        omega
      omega
  rw [h] at hlen
  omega

theorem ne_empty_data {s : String} (h : s ≠ "") : s.data ≠ [] := by
  intro hd
  apply h
  cases s with
  | mk l =>
    have hl : l = [] := hd
    rw [hl]

theorem matchParen_none_of_head {l : List Char}
    (h : ∀ c, (l.dropWhile wsChar).head? = some c → c ≠ '(') : matchParen l = none := by
  unfold matchParen
  cases hd : l.dropWhile wsChar with
  | nil => rfl
  | cons c l2 =>
    have hc : c ≠ '(' := h c (by rw [hd]; rfl)
    simp [hc]

/-- For a base free of parentheses, trimmed on the right, followed by
`" (" ++ any ++ ")"` with `any` free of `)`, the global regex
replacement removes exactly the parenthetical suffix. -/
theorem stripGo_strip (any : List Char) (hany : ∀ c ∈ any, c ≠ ')') :
    ∀ (b : List Char) (fuel : Nat), (∀ c ∈ b, c ≠ '(' ∧ c ≠ ')') →
      (∀ c, b.getLast? = some c → wsChar c = false) →
      b.length + (any.length + 3) ≤ fuel →
      stripGo fuel (b ++ (' ' :: '(' :: (any ++ [')']))) = b := by
  have hmpsep : matchParen (' ' :: '(' :: (any ++ [')'])) = some [] := by
    unfold matchParen
    have h1 : List.dropWhile wsChar (' ' :: '(' :: (any ++ [')']))
        = '(' :: (any ++ [')']) := by
      rw [List.dropWhile_cons]
      simp only [show wsChar ' ' = true from rfl, if_true]
      exact dropWhile_cons_of_neg _ (by rfl)
    have h2 : List.dropWhile (fun x => !decide (x = ')')) (any ++ [')']) = [')'] := by
      rw [dropWhile_append_all [')'] (fun c hc => by simpa using hany c hc)]
      simp [List.dropWhile_cons]
    rw [h1]
    simp [h2]
  intro b
  induction b with
  | nil =>
    intro fuel _ _ hfuel
    cases fuel with
    | zero => omega
    | succ f =>
      simp only [List.nil_append, stripGo, hmpsep]
  | cons d b' ih =>
    intro fuel hchars hlast hfuel
    cases fuel with
    | zero => omega
    | succ f =>
      have hmp : matchParen (d :: (b' ++ (' ' :: '(' :: (any ++ [')'])))) = none := by
        apply matchParen_none_of_head
        intro c hc
        by_cases hwd : wsChar d = true
        · -- `d` is whitespace, so `b'` is non-empty with a
          -- non-whitespace last element; the scan stops inside `b'`
          have hb' : b' ≠ [] := by
            intro hb
            subst hb
            have hdw := hlast d rfl
            rw [hwd] at hdw
            exact absurd hdw (by simp)
          have hlastb' : ∀ c, b'.getLast? = some c → wsChar c = false := by
            intro c hc2
            apply hlast
            cases b' with
            | nil => simp at hc2
            | cons x xs => exact hc2
          have hlastmem : b'.getLast hb' ∈ b' := List.getLast_mem hb'
          have hlastws : wsChar (b'.getLast hb') = false :=
            hlastb' _ (List.getLast?_eq_getLast b' hb')
          have hne : List.dropWhile wsChar b' ≠ [] :=
            dropWhile_ne_nil_of_last hlastmem hlastws
          rw [List.dropWhile_cons] at hc
          simp only [hwd, if_true] at hc
          rw [dropWhile_append_left _ hne] at hc
          rw [List.head?_append_of_ne_nil _ hne] at hc
          have hmem : c ∈ List.dropWhile wsChar b' := List.mem_of_mem_head? hc
          have hmem' : c ∈ b' := (List.dropWhile_suffix wsChar).mem hmem
          exact (hchars c (by simp [hmem'])).1
        · have hwd' : wsChar d = false := by simpa using hwd
          rw [dropWhile_cons_of_neg _ hwd'] at hc
          injection hc with hc
          exact hc ▸ (hchars d (by simp)).1
      have hstep : stripGo (f + 1) ((d :: b') ++ (' ' :: '(' :: (any ++ [')'])))
          = d :: stripGo f (b' ++ (' ' :: '(' :: (any ++ [')']))) := by
        rw [List.cons_append, stripGo, hmp]
      rw [hstep]
      rw [ih f (fun c hc => hchars c (by simp [hc]))
        (fun c hc => hlast c (by
          cases b' with
          | nil => simp at hc
          | cons x xs => exact hc))
        (by simp at hfuel ⊢; omega)]

/-- C7.  For the organizations publisher, the denomination value
`"Base (anything)"` — a parenthesis-free trimmed base followed by one
parenthetical annotation — maps to `"Base"`, as produced by
`cleanDenomination` inside `recordsToFeatures`. -/
theorem C7_clean_denomination (base any : String)
    (hbase : ∀ c ∈ base.data, c ≠ '(' ∧ c ≠ ')')
    (hany : ∀ c ∈ any.data, c ≠ ')')
    (ht : jsTrim base = base) (hne : base ≠ "") :
    cleanDenomination (.str (base ++ " (" ++ any ++ ")")) = base := by
  have hdata : (base ++ " (" ++ any ++ ")").data
      = base.data ++ (' ' :: '(' :: (any.data ++ [')'])) := by
    simp [strData_append]
  have hfix : jsTrim (base ++ " (" ++ any ++ ")") = base ++ " (" ++ any ++ ")" := by
    apply jsTrim_fixed
    · intro c hc
      rw [hdata] at hc
      rw [List.head?_append_of_ne_nil _ (ne_empty_data hne)] at hc
      exact jsTrim_eq_head_nonws ht c hc
    · intro c hc
      rw [hdata] at hc
      have : (base.data ++ (' ' :: '(' :: (any.data ++ [')']))).getLast?
          = (' ' :: '(' :: (any.data ++ [')'])).getLast? :=
        List.getLast?_append_of_ne_nil _ (by simp)
      rw [this] at hc
      have h2 : (' ' :: '(' :: (any.data ++ [')'])).getLast?
          = (any.data ++ [')']).getLast? := by
        cases any.data <;> rfl
      rw [h2, List.getLast?_concat] at hc
      injection hc with hc
      subst hc
      rfl
  show jsTrim ⟨stripParenGroups (normalizeValue (.str (base ++ " (" ++ any ++ ")"))).data⟩ = base
  have hnv : normalizeValue (.str (base ++ " (" ++ any ++ ")"))
      = base ++ " (" ++ any ++ ")" := hfix
  rw [hnv]
  unfold stripParenGroups
  rw [hdata]
  rw [stripGo_strip any.data hany base.data
    (base.data ++ (' ' :: '(' :: (any.data ++ [')']))).length
    (fun c hc => hbase c hc)
    (jsTrim_eq_last_nonws ht)
    (by simp)]
  have heta : (⟨base.data⟩ : String) = base := rfl
  rw [heta, ht]

/-- Witness for C7 (= spec Scenario B): `"Baptist (Southern Convention)"`
cleans to `"Baptist"`. -/
theorem C7_clean_denomination_witness :
    cleanDenomination (.str ("Baptist" ++ " (" ++ "Southern Convention" ++ ")")) = "Baptist" :=
  C7_clean_denomination "Baptist" "Southern Convention"
    (by decide) (by decide) (by rfl) (by decide)

/-! ## C6: property normalizer -/

theorem head?_dropWhile_nonp {p : Char → Bool} :
    ∀ {l : List Char} {c : Char}, (l.dropWhile p).head? = some c → p c = false := by
  intro l
  induction l with
  | nil => intro c hc; simp at hc
  | cons d rest ih =>
    intro c hc
    rw [List.dropWhile_cons] at hc
    by_cases hd : p d = true
    · rw [hd] at hc
      exact ih hc
    · have hd' : p d = false := by simpa using hd
      rw [hd'] at hc
      simp at hc
      exact hc ▸ hd'

theorem trimRightL_isPre (l : List Char) : trimRightL l <+: l := by
  unfold trimRightL
  have h : List.dropWhile wsChar l.reverse <:+ l.reverse := List.dropWhile_suffix wsChar
  obtain ⟨t, ht⟩ := h
  exact ⟨t.reverse, by rw [← List.reverse_append, ht, List.reverse_reverse]⟩

/-- `trim` output never starts with whitespace. -/
theorem jsTrim_head_nonws (s : String) :
    ∀ c, (jsTrim s).data.head? = some c → wsChar c = false := by
  intro c hc
  unfold jsTrim at hc
  rw [strMk_data] at hc
  obtain ⟨t, ht⟩ := trimRightL_isPre (trimLeftL s.data)
  cases he : trimRightL (trimLeftL s.data) with
  | nil => rw [he] at hc; simp at hc
  | cons d rest =>
    rw [he] at hc
    injection hc with hc
    rw [he] at ht
    have hh : (trimLeftL s.data).head? = some d := by
      rw [← ht]
      simp
    exact hc ▸ head?_dropWhile_nonp hh

/-- `trim` output never ends with whitespace. -/
theorem jsTrim_last_nonws (s : String) :
    ∀ c, (jsTrim s).data.getLast? = some c → wsChar c = false := by
  intro c hc
  unfold jsTrim at hc
  rw [strMk_data] at hc
  unfold trimRightL at hc
  rw [← List.head?_reverse, List.reverse_reverse] at hc
  exact head?_dropWhile_nonp hc

theorem jsTrim_idem (s : String) : jsTrim (jsTrim s) = jsTrim s :=
  jsTrim_fixed (jsTrim_head_nonws s) (jsTrim_last_nonws s)

theorem joinSep_ne_empty {L : List String} (hL : L ≠ [])
    (h : ∀ p ∈ L, p ≠ "") : joinSep ", " L ≠ "" := by
  match L, hL with
  | [x], _ =>
    exact h x (by simp)
  | x :: y :: ys, _ =>
    show x ++ ", " ++ joinSep ", " (y :: ys) ≠ ""
    intro he
    have := congrArg String.data he
    rw [strData_append, strData_append] at this
    have hx : x.data ≠ [] := ne_empty_data (h x (by simp))
    cases hxd : x.data with
    | nil => exact hx hxd
    | cons a as => rw [hxd] at this; simp at this

/-- Joining trimmed non-empty pieces with `", "` yields a trimmed
string. -/
theorem joinSep_trimmed (L : List String)
    (h : ∀ p ∈ L, jsTrim p = p ∧ p ≠ "") :
    jsTrim (joinSep ", " L) = joinSep ", " L := by
  apply jsTrim_fixed
  · intro c hc
    match L with
    | [] => simp [joinSep] at hc
    | [x] =>
      exact jsTrim_eq_head_nonws (h x (by simp)).1 c hc
    | x :: y :: ys =>
      have hx := h x (by simp)
      have hdata : (joinSep ", " (x :: y :: ys)).data
          = x.data ++ (", " ++ joinSep ", " (y :: ys)).data := by
        show (x ++ ", " ++ joinSep ", " (y :: ys)).data = _
        rw [strData_append, strData_append, strData_append, List.append_assoc]
      rw [hdata, List.head?_append_of_ne_nil _ (ne_empty_data hx.2)] at hc
      exact jsTrim_eq_head_nonws hx.1 c hc
  · intro c hc
    induction L with
    | nil => simp [joinSep] at hc
    | cons x tail ih =>
      match tail with
      | [] =>
        exact jsTrim_eq_last_nonws (h x (by simp)).1 c hc
      | y :: ys =>
        have htail : ∀ p ∈ y :: ys, jsTrim p = p ∧ p ≠ "" := by
          intro p hp; exact h p (by simp [hp])
        have hne : joinSep ", " (y :: ys) ≠ "" :=
          joinSep_ne_empty (by simp) (fun p hp => (htail p hp).2)
        have hdata : (joinSep ", " (x :: y :: ys)).data
            = (x ++ ", ").data ++ (joinSep ", " (y :: ys)).data := by
          show (x ++ ", " ++ joinSep ", " (y :: ys)).data = _
          rw [strData_append]
        rw [hdata, List.getLast?_append_of_ne_nil _ (ne_empty_data hne)] at hc
        exact ih htail hc

theorem dedupAcc_subset {x : String} :
    ∀ {seen L : List String}, x ∈ dedupAcc seen L → x ∈ L := by
  intro seen L
  induction L generalizing seen with
  | nil => intro h; simp [dedupAcc] at h
  | cons y ys ih =>
    intro h
    rw [dedupAcc] at h
    by_cases hy : y ∈ seen
    · rw [if_pos hy] at h
      exact List.mem_cons_of_mem y (ih h)
    · rw [if_neg hy] at h
      rcases List.mem_cons.mp h with h | h
      · simp [h]
      · exact List.mem_cons_of_mem y (ih h)

theorem dedupFirst_subset {x : String} {L : List String}
    (h : x ∈ dedupFirst L) : x ∈ L := dedupAcc_subset h

mutual
theorem normalizeValue_trimmed : ∀ v : JVal, jsTrim (normalizeValue v) = normalizeValue v
  | .null => rfl
  | .str s => jsTrim_idem s
  | .num n => jsTrim_idem (numToStr n)
  | .bool b => jsTrim_idem (jsToString (.bool b))
  | .arr xs => by
    show jsTrim (joinSep ", " ((dedupFirst (normalizeValueArr xs)).filter (· ≠ "")))
      = joinSep ", " ((dedupFirst (normalizeValueArr xs)).filter (· ≠ ""))
    apply joinSep_trimmed
    intro p hp
    rw [List.mem_filter] at hp
    exact ⟨normalizeValueArr_trimmed xs p (dedupFirst_subset hp.1), by simpa using hp.2⟩
  | .obj kvs => by
    show jsTrim (normalizeValue (.obj kvs)) = normalizeValue (.obj kvs)
    rw [normalizeValue]
    cases jsCoalesce kvs ["email", "name", "text", "value"] with
    | some cand => exact jsTrim_idem (jsToString cand)
    | none =>
      apply joinSep_trimmed
      intro p hp
      rw [List.mem_filter] at hp
      exact ⟨normalizeValueKVs_trimmed kvs p hp.1, by simpa using hp.2⟩

theorem normalizeValueArr_trimmed :
    ∀ (xs : List JVal), ∀ p ∈ normalizeValueArr xs, jsTrim p = p
  | [], p, hp => absurd hp (by simp [normalizeValueArr])
  | x :: xs, p, hp => by
    rw [normalizeValueArr] at hp
    rcases List.mem_cons.mp hp with h | h
    · exact h ▸ normalizeValue_trimmed x
    · exact normalizeValueArr_trimmed xs p h

theorem normalizeValueKVs_trimmed :
    ∀ (kvs : List (String × JVal)), ∀ p ∈ normalizeValueKVs kvs, jsTrim p = p
  | [], p, hp => absurd hp (by simp [normalizeValueKVs])
  | (k, v) :: rest, p, hp => by
    rw [normalizeValueKVs] at hp
    rcases List.mem_cons.mp hp with h | h
    · exact h ▸ normalizeValue_trimmed v
    · exact normalizeValueKVs_trimmed rest p h
end

/-- Elements of the `if`-guarded singleton pushed by the primitive and
object branches of `normalizeTextField` are trimmed and non-empty. -/
theorem mem_trimPiece {s p : String}
    (hp : p ∈ (if jsTrim s ≠ "" then [jsTrim s] else [])) :
    jsTrim p = p ∧ p ≠ "" := by
  by_cases h : jsTrim s ≠ ""
  · rw [if_pos h] at hp
    simp at hp
    subst hp
    exact ⟨jsTrim_idem s, h⟩
  · rw [if_neg h] at hp
    simp at hp

mutual
theorem ntfPush_good : ∀ (v : JVal), ∀ p ∈ ntfPush v, jsTrim p = p ∧ p ≠ ""
  | .null, p, hp => absurd hp (by simp [ntfPush])
  | .str s, p, hp => mem_trimPiece hp
  | .num n, p, hp => mem_trimPiece hp
  | .bool b, p, hp => mem_trimPiece hp
  | .arr xs, p, hp => ntfPushArr_good xs p hp
  | .obj kvs, p, hp => by
    rw [show ntfPush (.obj kvs)
        = match jsCoalesce kvs ["email", "text", "name", "value"] with
          | some cand =>
            let t := jsTrim (jsToString cand)
            if t ≠ "" then [t] else []
          | none => ntfPushKVs kvs from rfl] at hp
    cases hco : jsCoalesce kvs ["email", "text", "name", "value"] with
    | some cand =>
      rw [hco] at hp
      exact mem_trimPiece hp
    | none =>
      rw [hco] at hp
      exact ntfPushKVs_good kvs p hp

theorem ntfPushArr_good :
    ∀ (xs : List JVal), ∀ p ∈ ntfPushArr xs, jsTrim p = p ∧ p ≠ ""
  | [], p, hp => absurd hp (by simp [ntfPushArr])
  | x :: xs, p, hp => by
    rw [ntfPushArr] at hp
    rcases List.mem_append.mp hp with h | h
    · exact ntfPush_good x p h
    · exact ntfPushArr_good xs p h

theorem ntfPushKVs_good :
    ∀ (kvs : List (String × JVal)), ∀ p ∈ ntfPushKVs kvs, jsTrim p = p ∧ p ≠ ""
  | [], p, hp => absurd hp (by simp [ntfPushKVs])
  | (k, v) :: rest, p, hp => by
    rw [ntfPushKVs] at hp
    rcases List.mem_append.mp hp with h | h
    · exact ntfPush_good v p h
    · exact ntfPushKVs_good rest p h
end

theorem ntf_output_trimmed (v : JVal) :
    jsTrim (normalizeTextField v) = normalizeTextField v := by
  cases v with
  | null => rfl
  | str s =>
    apply joinSep_trimmed
    intro p hp
    exact ntfPush_good _ p (dedupFirst_subset hp)
  | num n =>
    apply joinSep_trimmed
    intro p hp
    exact ntfPush_good _ p (dedupFirst_subset hp)
  | bool b =>
    apply joinSep_trimmed
    intro p hp
    exact ntfPush_good _ p (dedupFirst_subset hp)
  | arr xs =>
    apply joinSep_trimmed
    intro p hp
    exact ntfPush_good _ p (dedupFirst_subset hp)
  | obj kvs =>
    apply joinSep_trimmed
    intro p hp
    exact ntfPush_good _ p (dedupFirst_subset hp)

theorem normalizeValue_idem (v : JVal) :
    normalizeValue (.str (normalizeValue v)) = normalizeValue v :=
  normalizeValue_trimmed v

theorem normalizeTextField_idem (v : JVal) :
    normalizeTextField (.str (normalizeTextField v)) = normalizeTextField v := by
  by_cases h : normalizeTextField v = ""
  · rw [h]
    rfl
  · have ht : jsTrim (normalizeTextField v) = normalizeTextField v := ntf_output_trimmed v
    show joinSep ", " (dedupFirst (ntfPush (.str (normalizeTextField v))))
      = normalizeTextField v
    rw [show ntfPush (.str (normalizeTextField v))
        = (if jsTrim (normalizeTextField v) ≠ "" then [jsTrim (normalizeTextField v)] else [])
        from rfl]
    rw [ht, if_pos h]
    simp [dedupFirst, dedupAcc, joinSep]

/-- C6, counterexample to the claimed object priority order
`email/name/text/value`: the network-map `normalizeTextField` (one of
the two normalizers the claim cites) prefers `text` over `name`, so on
`{name: "A", text: "B"}` it returns `"B"`, whereas the claimed order —
followed by the organizations `normalizeValue` — yields `"A"`. -/
theorem C6_priority_counterexample :
    normalizeTextField (.obj [("name", .str "A"), ("text", .str "B")]) = "B"
    ∧ normalizeValue (.obj [("name", .str "A"), ("text", .str "B")]) = "A"
    ∧ ("B" : String) ≠ "A" :=
  ⟨rfl, rfl, by decide⟩

/-- C6, amended.  Both property normalizers are idempotent (normalizing
an already-normalized string returns it unchanged), both map
`["A","A","B"]` to `"A, B"` and `{name:"X"}` to `"X"`; the organizations
`normalizeValue` extracts object fields in the priority order
`email/name/text/value`, while the network-map `normalizeTextField` uses
`email/text/name/value`. -/
theorem C6_normalizer_amended :
    (∀ v : JVal, normalizeValue (.str (normalizeValue v)) = normalizeValue v)
    ∧ normalizeValue (.arr [.str "A", .str "A", .str "B"]) = "A, B"
    ∧ normalizeValue (.obj [("name", .str "X")]) = "X"
    ∧ normalizeValue (.obj [("email", .str "E"), ("name", .str "N"),
        ("text", .str "T"), ("value", .str "V")]) = "E"
    ∧ normalizeValue (.obj [("name", .str "N"), ("text", .str "T"),
        ("value", .str "V")]) = "N"
    ∧ normalizeValue (.obj [("text", .str "T"), ("value", .str "V")]) = "T"
    ∧ normalizeValue (.obj [("value", .str "V")]) = "V"
    ∧ (∀ v : JVal, normalizeTextField (.str (normalizeTextField v)) = normalizeTextField v)
    ∧ normalizeTextField (.arr [.str "A", .str "A", .str "B"]) = "A, B"
    ∧ normalizeTextField (.obj [("name", .str "X")]) = "X"
    ∧ normalizeTextField (.obj [("email", .str "E"), ("name", .str "N"),
        ("text", .str "T"), ("value", .str "V")]) = "E"
    ∧ normalizeTextField (.obj [("name", .str "N"), ("text", .str "T"),
        ("value", .str "V")]) = "T"
    ∧ normalizeTextField (.obj [("name", .str "N"), ("value", .str "V")]) = "N"
    ∧ normalizeTextField (.obj [("value", .str "V")]) = "V" :=
  ⟨normalizeValue_idem, rfl, rfl, rfl, rfl, rfl, rfl,
   normalizeTextField_idem, rfl, rfl, rfl, rfl, rfl, rfl⟩

/-! ## C2 and C3: the paginated fetcher -/

/-- Counting invariant of the fetch loop: `pagesUsed` counts exactly the
issued requests, and at most `fuel` more requests are issued. -/
theorem fetchLoop_count (up : Option String → Page) (table : String) :
    ∀ (fuel : Nat) (cur : Option String) (acc : List AirRec) (used : Nat)
      (reqs : List (Option String)) (r : FetchOk),
      fetchLoop up table fuel cur acc used reqs = .ok r →
      r.pagesUsed ≤ used + fuel ∧ r.pagesUsed + reqs.length = r.requests.length + used := by
  intro fuel
  induction fuel with
  | zero =>
    intro cur acc used reqs r h
    rw [fetchLoop] at h
    injection h with h
    subst h
    exact ⟨by simp, by simp [Nat.add_comm]⟩
  | succ f ih =>
    intro cur acc used reqs r h
    rw [fetchLoop] at h
    by_cases hok : respOk (up (truthyCursor cur)) = true
    · rw [if_pos hok] at h
      cases hoff : truthyCursor (up (truthyCursor cur)).offset with
      | some s =>
        rw [hoff] at h
        have := ih _ _ _ _ _ h
        simp only [List.length_append, List.length_cons, List.length_nil] at this
        omega
      | none =>
        rw [hoff] at h
        injection h with h
        subst h
        simp only [List.length_append, List.length_cons, List.length_nil]
        omega
    · rw [if_neg hok] at h
      exact absurd h (by simp)

/-- The `nextCursor` of a successful fetch is exactly the truthiness-
filtered `offset` of the response to the final issued request. -/
theorem fetchLoop_last (up : Option String → Page) (table : String) :
    ∀ (fuel : Nat) (cur : Option String) (acc : List AirRec) (used : Nat)
      (reqs : List (Option String)) (r : FetchOk),
      fetchLoop up table (fuel + 1) cur acc used reqs = .ok r →
      ∃ q, r.requests.getLast? = some q ∧ r.nextCursor = truthyCursor (up q).offset := by
  intro fuel
  induction fuel with
  | zero =>
    intro cur acc used reqs r h
    rw [fetchLoop] at h
    by_cases hok : respOk (up (truthyCursor cur)) = true
    · rw [if_pos hok] at h
      cases hoff : truthyCursor (up (truthyCursor cur)).offset with
      | some s =>
        rw [hoff] at h
        simp only [fetchLoop] at h
        injection h with h
        subst h
        exact ⟨truthyCursor cur, by simp, by simp [hoff]⟩
      | none =>
        rw [hoff] at h
        injection h with h
        subst h
        exact ⟨truthyCursor cur, by simp, by simp [hoff]⟩
    · rw [if_neg hok] at h
      exact absurd h (by simp)
  | succ f ih =>
    intro cur acc used reqs r h
    rw [fetchLoop] at h
    by_cases hok : respOk (up (truthyCursor cur)) = true
    · rw [if_pos hok] at h
      cases hoff : truthyCursor (up (truthyCursor cur)).offset with
      | some s =>
        rw [hoff] at h
        exact ih _ _ _ _ _ h
      | none =>
        rw [hoff] at h
        injection h with h
        subst h
        exact ⟨truthyCursor cur, by simp, by simp [hoff]⟩
    · rw [if_neg hok] at h
      exact absurd h (by simp)

/-- C2.  A single call of the paginated fetcher with `maxPages = N ≥ 1`
issues at most `N` upstream page requests (`pagesUsed` counts exactly
the issued requests), and its `nextCursor` equals the truthy
continuation offset of the response to the last issued request — in
particular `nextCursor` is null iff that response carried no (truthy)
continuation offset, i.e. iff the upstream had no more data beyond the
last fetched page. -/
theorem C2_pagination_bound (up : Option String → Page) (table : String)
    (fields : List String) (cursor : Option String) (N : Nat) (r : FetchOk)
    (hN : 1 ≤ N) (h : fetchAirtableChunk up table fields cursor N = .ok r) :
    r.requests.length ≤ N ∧ r.pagesUsed = r.requests.length ∧
    ∃ q, r.requests.getLast? = some q ∧
      r.nextCursor = truthyCursor (up q).offset ∧
      (r.nextCursor = none ↔ truthyCursor (up q).offset = none) := by
  unfold fetchAirtableChunk at h
  have hc := fetchLoop_count up table N cursor [] 0 [] r h
  obtain ⟨f, rfl⟩ : ∃ f, N = f + 1 := ⟨N - 1, by omega⟩
  obtain ⟨q, hq1, hq2⟩ := fetchLoop_last up table f cursor [] 0 [] r h
  simp only [List.length_nil] at hc
  exact ⟨by omega, by omega, q, hq1, hq2, by rw [hq2]⟩

/-- Witness for C2: two upstream pages, `N = 1` — one request is issued
and the returned cursor is the continuation token after page 0. -/
theorem C2_pagination_bound_witness :
    ((⟨[⟨"recAAAAAAAAAAA001", []⟩], some (encCur 1), 1, [none]⟩ : FetchOk).requests.length ≤ 1)
    ∧ (⟨[⟨"recAAAAAAAAAAA001", []⟩], some (encCur 1), 1, [none]⟩ : FetchOk).pagesUsed
        = (⟨[⟨"recAAAAAAAAAAA001", []⟩], some (encCur 1), 1, [none]⟩ : FetchOk).requests.length
    ∧ ∃ q, (⟨[⟨"recAAAAAAAAAAA001", []⟩], some (encCur 1), 1, [none]⟩ : FetchOk).requests.getLast? = some q ∧
        (⟨[⟨"recAAAAAAAAAAA001", []⟩], some (encCur 1), 1, [none]⟩ : FetchOk).nextCursor
          = truthyCursor ((upOfPages [[⟨"recAAAAAAAAAAA001", []⟩], [⟨"recBBBBBBBBBBB002", []⟩]]) q).offset ∧
        ((⟨[⟨"recAAAAAAAAAAA001", []⟩], some (encCur 1), 1, [none]⟩ : FetchOk).nextCursor = none
          ↔ truthyCursor ((upOfPages [[⟨"recAAAAAAAAAAA001", []⟩], [⟨"recBBBBBBBBBBB002", []⟩]]) q).offset = none) :=
  C2_pagination_bound (upOfPages [[⟨"recAAAAAAAAAAA001", []⟩], [⟨"recBBBBBBBBBBB002", []⟩]])
    "Master List" [] none 1 _ (by omega) (by rfl)

/-- Every error of the fetch loop is the `Airtable error <status>: <body>`
message of some issued request whose response was non-success. -/
theorem fetchLoop_error (up : Option String → Page) (table : String) :
    ∀ (fuel : Nat) (cur : Option String) (acc : List AirRec) (used : Nat)
      (reqs : List (Option String)) (e : String),
      fetchLoop up table fuel cur acc used reqs = .error e →
      ∃ q, respOk (up q) = false ∧ e = airtableErrMsg (up q) := by
  intro fuel
  induction fuel with
  | zero =>
    intro cur acc used reqs e h
    rw [fetchLoop] at h
    exact absurd h (by simp)
  | succ f ih =>
    intro cur acc used reqs e h
    rw [fetchLoop] at h
    by_cases hok : respOk (up (truthyCursor cur)) = true
    · rw [if_pos hok] at h
      cases hoff : truthyCursor (up (truthyCursor cur)).offset with
      | some s =>
        rw [hoff] at h
        exact ih _ _ _ _ _ h
      | none =>
        rw [hoff] at h
        exact absurd h (by simp)
    · rw [if_neg hok] at h
      injection h with h
      exact ⟨truthyCursor cur, by simpa using hok, h.symm⟩

/-- C3, amended.  A non-success upstream status aborts the whole fetch:
the call returns an error (and, being an error, no records at all); the
thrown message identifies the HTTP status and carries the upstream
response body — `Airtable error <status>: <body>` — but does not name
the table.  Conversely, a non-success response to the first page request
makes the whole call fail with exactly that message. -/
theorem C3_error_behavior_amended (up : Option String → Page) (table : String)
    (fields : List String) (cursor : Option String) (N : Nat) :
    (∀ e, fetchAirtableChunk up table fields cursor N = .error e →
      ∃ q, respOk (up q) = false ∧ e = airtableErrMsg (up q))
    ∧ (1 ≤ N → respOk (up (truthyCursor cursor)) = false →
      fetchAirtableChunk up table fields cursor N
        = .error (airtableErrMsg (up (truthyCursor cursor)))) := by
  constructor
  · intro e h
    exact fetchLoop_error up table N cursor [] 0 [] e h
  · intro hN hbad
    obtain ⟨f, rfl⟩ : ∃ f, N = f + 1 := ⟨N - 1, by omega⟩
    unfold fetchAirtableChunk
    rw [fetchLoop]
    rw [if_neg (by simp [hbad])]

/-- Witness for C3's amended theorem: a 500 on the first page makes the
whole call fail with the status-carrying message. -/
theorem C3_error_behavior_amended_witness :
    fetchAirtableChunk (fun _ => ⟨500, [], none, "boom"⟩) "Master List" [] none 3
      = .error (airtableErrMsg ((fun _ => (⟨500, [], none, "boom"⟩ : Page))
          (truthyCursor none))) :=
  (C3_error_behavior_amended (fun _ => ⟨500, [], none, "boom"⟩)
    "Master List" [] none 3).2 (by omega) (by rfl)

/-- C3, counterexample to "identifies both the table and the status":
with table `"Master List"` and a failing upstream, the thrown message is
`"Airtable error 500: boom"`, which identifies the status but does not
contain the table name. -/
theorem C3_table_counterexample :
    fetchAirtableChunk (fun _ => ⟨500, [], none, "boom"⟩) "Master List" [] none 3
      = .error "Airtable error 500: boom"
    ∧ strContains "Airtable error 500: boom" "Master List" = false :=
  ⟨rfl, rfl⟩

/-! ## C4: the `chunkCount = chunkKeys.length` invariant -/

theorem putStore_self (s : Store) (k : String) (v : StoreVal) :
    putStore s k v k = some v := by simp [putStore]

theorem putStore_other (s : Store) (k : String) (v : StoreVal) {k' : String}
    (h : k' ≠ k) : putStore s k v k' = s k' := by simp [putStore, h]

theorem delStore_self (s : Store) (k : String) : delStore s k k = none := by
  simp [delStore]

theorem delStore_other (s : Store) (k : String) {k' : String} (h : k' ≠ k) :
    delStore s k k' = s k' := by simp [delStore, h]

theorem statesOk_put (s : Store) (k : String) (st : JobState) (h : invState st) :
    statesOk (putStore s k (.stateV st)) k := by
  intro stv hstv
  rw [putStore_self] at hstv
  injection hstv with hstv
  injection hstv with hstv
  exact hstv ▸ h

theorem statesOk_del (s : Store) (k : String) : statesOk (delStore s k) k := by
  intro stv hstv
  rw [delStore_self] at hstv
  exact absurd hstv (by simp)

/-- C4.  The fresh state initializes `chunkCount = 0` and
`chunkKeys = []`; and whenever the checkpoint read at the start of a
step satisfies `chunkCount = chunkKeys.length`, every checkpoint left in
the store by that step (the in-progress branch appends exactly one chunk
key and increments `chunkCount` by one before persisting; the finalize
branch deletes the checkpoint) satisfies it too. -/
theorem C4_chunk_invariant (up : Option String → Page) (env : JobEnv)
    (objectKey : String) (maxPages : Nat) (payload : Payload) (minted : String)
    (store : Store)
    (hprior : statesOk store (stateKeyOf (jobIdOf payload minted))) :
    (∀ j ok t la lo, invState (freshState j ok t la lo))
    ∧ statesOk
        (resultStore (processChunkCore up env objectKey maxPages payload minted store) store)
        (stateKeyOf (jobIdOf payload minted)) := by
  refine ⟨fun j ok t la lo => rfl, ?_⟩
  unfold processChunkCore
  by_cases hsafe : isSafeKey objectKey = true
  · simp only [hsafe, Bool.not_true, Bool.false_eq_true, if_false]
    have hinv0 : invState ((readState store (stateKeyOf (jobIdOf payload minted))).getD
        (freshState (jobIdOf payload minted) objectKey
          (orDefault env.ORG_TABLE_NAME "Master List")
          (orDefault env.FIELD_LAT "Latitude")
          (orDefault env.FIELD_LON "Longitude"))) := by
      cases hrs : readState store (stateKeyOf (jobIdOf payload minted)) with
      | none => rfl
      | some st0 =>
        apply hprior
        unfold readState at hrs
        cases hsv : store (stateKeyOf (jobIdOf payload minted)) with
        | none => rw [hsv] at hrs; exact absurd hrs (by simp)
        | some v =>
          rw [hsv] at hrs
          cases v with
          | stateV st =>
            injection hrs with hrs
            rw [← hrs]
            rfl
          | chunkV a => exact absurd hrs (by simp)
          | docV a => exact absurd hrs (by simp)
    split
    · exact hprior
    · split
      · apply statesOk_put
        show _ + 1 = (_ ++ [_]).length
        rw [List.length_append]
        simpa [invState] using hinv0
      · exact statesOk_del _ _
  · have hsafe' : isSafeKey objectKey = false := by simpa using hsafe
    simp only [hsafe', Bool.not_false, if_true]
    exact hprior

/-- Witness for C4: a fresh job step over a two-page upstream persists a
checkpoint, and that checkpoint satisfies the invariant. -/
theorem C4_chunk_invariant_witness :
    (∀ j ok t la lo, invState (freshState j ok t la lo))
    ∧ statesOk
        (resultStore
          (processChunkCore (upOfPages [[⟨"recAAAAAAAAAAA001", []⟩], [⟨"recBBBBBBBBBBB002", []⟩]])
            ⟨"", "", "", "", .null⟩ "organization_map.geojson" 1
            ⟨some "j1", none⟩ "j1" emptyStore)
          emptyStore)
        (stateKeyOf (jobIdOf ⟨some "j1", none⟩ "j1")) :=
  C4_chunk_invariant (upOfPages [[⟨"recAAAAAAAAAAA001", []⟩], [⟨"recBBBBBBBBBBB002", []⟩]])
    ⟨"", "", "", "", .null⟩ "organization_map.geojson" 1 ⟨some "j1", none⟩ "j1" emptyStore
    (fun stv h => absurd h (by simp [emptyStore]))

/-! ## C8: pull-through cache-then-serve -/

/-- C8.  On an image-proxy cache miss with the images bucket bound, when
the record fetch succeeds, the requested index resolves to a URL, and
the bytes fetch succeeds, the handler returns a 200 response carrying
exactly the fetched bytes together with exactly one scheduled
(fire-and-forget) background cache write of those bytes; the response
value is constructed independently of the background write's outcome,
which is not even an input of the handler. -/
theorem C8_cache_then_serve (jp : String → Option JVal)
    (bucket : String → Option NetMap.CacheObj) (recResp : NetMap.RecResp)
    (imgFetch : String → NetMap.ImgResp) (pathname : String)
    (rid : String) (idx : JNum) (u : String)
    (hparse : NetMap.parseAttachmentPath pathname "/networks/img/" = (some rid, idx))
    (hvalid : NetMap.isValidRecordId (some rid) = true)
    (hvidx : NetMap.isValidIndex idx = true)
    (hmiss : bucket (NetMap.r2Key rid idx) = none)
    (hrec : (200 ≤ recResp.status && recResp.status < 300) = true)
    (hurl : NetMap.jsIndex (NetMap.collectPhotoUrls jp (jget recResp.record.fields "Photo")) idx
      = some u)
    (hune : u ≠ "")
    (hok : (imgFetch u).ok = true) :
    NetMap.imgRoute jp true bucket recResp imgFetch pathname
      = .ok (⟨200, NetMap.ctOrJpeg (imgFetch u).contentType, .bytesB (imgFetch u).bytes⟩,
             [⟨NetMap.r2Key rid idx, (imgFetch u).bytes,
               NetMap.ctOrJpeg (imgFetch u).contentType⟩]) := by
  unfold NetMap.imgRoute NetMap.handleAttachmentProxy
  rw [hparse]
  simp [hvalid, hvidx, hmiss, hrec, hurl, hune, hok]

/-- Witness for C8: a concrete miss on `/networks/img/<id>/0` serves the
fetched bytes with one background write of the same bytes. -/
theorem C8_cache_then_serve_witness :
    NetMap.imgRoute (fun _ => none) true (fun _ => none)
        ⟨200, ⟨"recAAAAAAAAAAA001", [("Photo", .arr [.obj [("url", .str "http://img/x.jpg")]])]⟩, ""⟩
        (fun _ => ⟨true, 200, some "image/png", "BYTES"⟩)
        "/networks/img/recAAAAAAAAAAA001/0"
      = .ok (⟨200, NetMap.ctOrJpeg ((fun (_ : String) =>
              (⟨true, 200, some "image/png", "BYTES"⟩ : NetMap.ImgResp)) "http://img/x.jpg").contentType,
             .bytesB ((fun (_ : String) =>
              (⟨true, 200, some "image/png", "BYTES"⟩ : NetMap.ImgResp)) "http://img/x.jpg").bytes⟩,
             [⟨NetMap.r2Key "recAAAAAAAAAAA001" (.fin 0),
               ((fun (_ : String) =>
                 (⟨true, 200, some "image/png", "BYTES"⟩ : NetMap.ImgResp)) "http://img/x.jpg").bytes,
               NetMap.ctOrJpeg ((fun (_ : String) =>
                 (⟨true, 200, some "image/png", "BYTES"⟩ : NetMap.ImgResp)) "http://img/x.jpg").contentType⟩]) :=
  C8_cache_then_serve (fun _ => none) (fun _ => none)
    ⟨200, ⟨"recAAAAAAAAAAA001", [("Photo", .arr [.obj [("url", .str "http://img/x.jpg")]])]⟩, ""⟩
    (fun _ => ⟨true, 200, some "image/png", "BYTES"⟩)
    "/networks/img/recAAAAAAAAAAA001/0"
    "recAAAAAAAAAAA001" (.fin 0) "http://img/x.jpg"
    (by rfl) (by rfl) (by rfl) (by rfl) (by rfl) (by rfl) (by decide) (by rfl)

/-! ## C9: error envelope shapes -/

/-- C9, counterexample: the image-proxy 400 malformed-path response is a
plain-text body (`text/plain`), not the `{error: string}` JSON
envelope. -/
theorem C9_envelope_counterexample :
    NetMap.imgRoute (fun _ => none) true (fun _ => none)
        ⟨200, ⟨"", []⟩, ""⟩ (fun _ => ⟨true, 200, none, ""⟩) "/networks/img/bad"
      = .ok (NetMap.textResp "Bad request" 400, [])
    ∧ NetMap.isErrorEnvelope (NetMap.textResp "Bad request" 400) = false
    ∧ (NetMap.textResp "Bad request" 400).ctype = "text/plain; charset=utf-8" :=
  ⟨rfl, rfl, rfl⟩

/-- C9, amended.  The top-level catch wraps any thrown error in the
`{error: string}` JSON envelope (500), but the image-proxy's own error
responses are plain text, not the envelope: 400 `Bad request` on a
malformed path, 404 `<field> URL missing` when the attachment index does
not resolve, and the upstream status with `Failed to fetch image from
Airtable` when the bytes fetch fails. -/
theorem C9_error_responses_amended (jp : String → Option JVal)
    (bucket : String → Option NetMap.CacheObj) (recResp : NetMap.RecResp)
    (imgFetch : String → NetMap.ImgResp) :
    (∀ msg, NetMap.topHandle (.error msg)
        = (NetMap.jsonResp (.obj [("error", .str msg)]) 500, [])
      ∧ NetMap.isErrorEnvelope (NetMap.jsonResp (.obj [("error", .str msg)]) 500) = true)
    ∧ (∀ pathname,
        (NetMap.isValidRecordId (NetMap.parseAttachmentPath pathname "/networks/img/").1
          && NetMap.isValidIndex (NetMap.parseAttachmentPath pathname "/networks/img/").2) = false →
        NetMap.imgRoute jp true bucket recResp imgFetch pathname
          = .ok (NetMap.textResp "Bad request" 400, [])
        ∧ NetMap.isErrorEnvelope (NetMap.textResp "Bad request" 400) = false)
    ∧ (∀ rid idx fieldName,
        (200 ≤ recResp.status && recResp.status < 300) = true →
        NetMap.jsIndex (NetMap.collectPhotoUrls jp (jget recResp.record.fields fieldName)) idx
          = none →
        NetMap.handleAttachmentProxy jp recResp imgFetch true rid idx fieldName
          = .ok (NetMap.textResp (fieldName ++ " URL missing") 404, [])
        ∧ NetMap.isErrorEnvelope (NetMap.textResp (fieldName ++ " URL missing") 404) = false)
    ∧ (∀ rid idx fieldName u,
        (200 ≤ recResp.status && recResp.status < 300) = true →
        NetMap.jsIndex (NetMap.collectPhotoUrls jp (jget recResp.record.fields fieldName)) idx
          = some u →
        u ≠ "" →
        (imgFetch u).ok = false →
        NetMap.handleAttachmentProxy jp recResp imgFetch true rid idx fieldName
          = .ok (NetMap.textResp "Failed to fetch image from Airtable" (imgFetch u).status, [])
        ∧ NetMap.isErrorEnvelope
            (NetMap.textResp "Failed to fetch image from Airtable" (imgFetch u).status) = false) := by
  refine ⟨fun msg => ⟨rfl, rfl⟩, ?_, ?_, ?_⟩
  · intro pathname hbad
    refine ⟨?_, rfl⟩
    unfold NetMap.imgRoute
    simp [hbad]
  · intro rid idx fieldName hrec hnone
    refine ⟨?_, rfl⟩
    unfold NetMap.handleAttachmentProxy
    simp [hrec, hnone]
  · intro rid idx fieldName u hrec hurl hune hfail
    refine ⟨?_, rfl⟩
    unfold NetMap.handleAttachmentProxy
    simp [hrec, hurl, hune, hfail]

/-- Witness for C9's amended theorem: exercising the malformed-path and
missing-attachment branches at concrete inputs. -/
theorem C9_error_responses_amended_witness :
    (NetMap.topHandle (.error "oops")
        = (NetMap.jsonResp (.obj [("error", .str "oops")]) 500, [])
      ∧ NetMap.isErrorEnvelope (NetMap.jsonResp (.obj [("error", .str "oops")]) 500) = true)
    ∧ (NetMap.imgRoute (fun _ => none) true (fun _ => none)
          ⟨200, ⟨"", []⟩, ""⟩ (fun _ => ⟨true, 200, none, ""⟩) "/networks/img/bad"
        = .ok (NetMap.textResp "Bad request" 400, [])
      ∧ NetMap.isErrorEnvelope (NetMap.textResp "Bad request" 400) = false)
    ∧ (NetMap.handleAttachmentProxy (fun _ => none) ⟨200, ⟨"recAAAAAAAAAAA001", []⟩, ""⟩
          (fun _ => ⟨true, 200, none, ""⟩) true "recAAAAAAAAAAA001" (.fin 0) "Photo"
        = .ok (NetMap.textResp ("Photo" ++ " URL missing") 404, [])
      ∧ NetMap.isErrorEnvelope (NetMap.textResp ("Photo" ++ " URL missing") 404) = false) :=
  ⟨(C9_error_responses_amended (fun _ => none) (fun _ => none)
      ⟨200, ⟨"", []⟩, ""⟩ (fun _ => ⟨true, 200, none, ""⟩)).1 "oops",
   (C9_error_responses_amended (fun _ => none) (fun _ => none)
      ⟨200, ⟨"", []⟩, ""⟩ (fun _ => ⟨true, 200, none, ""⟩)).2.1 "/networks/img/bad" (by rfl),
   (C9_error_responses_amended (fun _ => none) (fun _ => none)
      ⟨200, ⟨"recAAAAAAAAAAA001", []⟩, ""⟩ (fun _ => ⟨true, 200, none, ""⟩)).2.2.1
     "recAAAAAAAAAAA001" (.fin 0) "Photo" (by rfl) (by rfl)⟩

/-- Witness for C5: a record with latitude `"abc"` (NaN) is dropped by
the point publisher, a record with unparseable `Polygon` is dropped by
the polygon publisher, while a well-formed neighbour record survives in
both cases. -/
theorem C5_drop_invalid_witness :
    ((isFiniteJ (toNum (jget [("Latitude", JVal.str "abc"), ("Longitude", JVal.str "1")] "Latitude"))
      && isFiniteJ (toNum (jget [("Latitude", JVal.str "abc"), ("Longitude", JVal.str "1")] "Longitude"))) = false) ∧
    OrgsMap.recordsToFeatures "Latitude" "Longitude" "https://o"
        ([⟨"recAAAAAAAAAAA001", [("Latitude", .str "35"), ("Longitude", .str "-86")]⟩]
          ++ ⟨"recBAD0000000000X", [("Latitude", .str "abc"), ("Longitude", .str "1")]⟩
          :: [])
      = OrgsMap.recordsToFeatures "Latitude" "Longitude" "https://o"
        ([⟨"recAAAAAAAAAAA001", [("Latitude", .str "35"), ("Longitude", .str "-86")]⟩] ++ []) ∧
    NetMap.regenFeatures (fun _ => none) "https://o"
        ([⟨"recAAAAAAAAAAA001", [("Polygon", .obj [("type", .str "Polygon")])]⟩]
          ++ ⟨"recBAD0000000000X", [("Polygon", .str "oops")]⟩ :: [])
      = NetMap.regenFeatures (fun _ => none) "https://o"
        ([⟨"recAAAAAAAAAAA001", [("Polygon", .obj [("type", .str "Polygon")])]⟩] ++ []) :=
  ⟨by rfl,
   C5_drop_invalid.1 "Latitude" "Longitude" "https://o" _ []
     ⟨"recBAD0000000000X", [("Latitude", .str "abc"), ("Longitude", .str "1")]⟩ (by rfl),
   C5_drop_invalid.2 (fun _ => none) "https://o" _ []
     ⟨"recBAD0000000000X", [("Polygon", .str "oops")]⟩ (by rfl)⟩

/-! ## C10: the bounded worker pool -/

theorem runMS_set : ∀ (ws : List WStatus) (w : Nat) (st x : WStatus),
    ws.get? w = some st →
    runMS (ws.set w x) + wContrib st = runMS ws + wContrib x := by
  intro ws
  induction ws with
  | nil => intro w st x h; simp at h
  | cons y ys ih =>
    intro w st x h
    cases w with
    | zero =>
      injection h with h
      subst h
      show wContrib x + runMS ys + wContrib y = wContrib y + runMS ys + wContrib x
      rw [add_comm (wContrib x) (runMS ys), add_comm (wContrib y) (runMS ys),
        add_assoc, add_assoc, add_comm (wContrib x) (wContrib y)]
    | succ w' =>
      have h2 := ih w' st x h
      show wContrib y + runMS (ys.set w' x) + wContrib st
        = wContrib y + runMS ys + wContrib x
      rw [add_assoc, h2, add_assoc]

theorem runMS_mem_of_get : ∀ (ws : List WStatus) (w cur : Nat),
    ws.get? w = some (.running cur) → cur ∈ runMS ws := by
  intro ws
  induction ws with
  | nil => intro w cur h; simp at h
  | cons y ys ih =>
    intro w cur h
    cases w with
    | zero =>
      injection h with h
      subst h
      show cur ∈ wContrib (.running cur) + runMS ys
      simp [wContrib]
    | succ w' =>
      show cur ∈ wContrib y + runMS ys
      exact Multiset.mem_add.mpr (Or.inr (ih w' cur h))

theorem runMS_all_done : ∀ ws : List WStatus, (∀ w ∈ ws, w = WStatus.done) →
    runMS ws = 0 := by
  intro ws
  induction ws with
  | nil => intro _; rfl
  | cons y ys ih =>
    intro h
    show wContrib y + runMS ys = 0
    rw [h y (by simp), ih (fun w hw => h w (by simp [hw]))]
    rfl

theorem mem_of_mem_set {a x : WStatus} : ∀ (l : List WStatus) (n : Nat),
    a ∈ l.set n x → a = x ∨ a ∈ l := by
  intro l
  induction l with
  | nil => intro n h; simp at h
  | cons y ys ih =>
    intro n h
    cases n with
    | zero =>
      rcases List.mem_cons.mp h with h | h
      · exact Or.inl h
      · exact Or.inr (List.mem_cons_of_mem _ h)
    | succ n' =>
      rcases List.mem_cons.mp h with h | h
      · exact Or.inr (h ▸ List.mem_cons_self _ _)
      · rcases ih n' h with h | h
        · exact Or.inl h
        · exact Or.inr (List.mem_cons_of_mem _ h)

theorem get?_replicate_lt {A : Type} (c : A) : ∀ (n i : Nat), i < n →
    (List.replicate n c).get? i = some c := by
  intro n
  induction n with
  | zero => intro i h; omega
  | succ n ih =>
    intro i h
    cases i with
    | zero => rfl
    | succ i' => exact ih i' (by omega)

theorem runMS_replicate_idle (k : Nat) : runMS (List.replicate k .idle) = 0 := by
  induction k with
  | zero => rfl
  | succ n ih =>
    show wContrib .idle + runMS (List.replicate n .idle) = 0
    rw [ih]
    rfl

theorem wcInit_inv {α β : Type} (items : List α) (fn : α → Option β) (limit : Nat) :
    WCInv items fn (wcInit α items limit) := by
  refine ⟨by simp [wcInit], by simp [wcInit], ?_, ?_, ?_, ?_⟩
  · show (↑([] : List Nat) + runMS (List.replicate (min limit items.length) .idle)
      = (↑(List.range 0) : Multiset Nat))
    rw [runMS_replicate_idle]
    rfl
  · intro i hi
    simp [wcInit] at hi
  · intro i _ hlen
    show (List.replicate items.length (none : Option β)).get? i = some none
    exact get?_replicate_lt none items.length i hlen
  · intro hd
    exact absurd (List.eq_of_mem_replicate hd) (by decide)

theorem wcStep_inv {α β : Type} (items : List α) (fn : α → Option β)
    (s : WCState β) (w : Nat) (hinv : WCInv items fn s) :
    WCInv items fn (wcStep items fn s w) := by
  obtain ⟨hnext, hslen, hperm, happ, hunapp, hdone⟩ := hinv
  cases hw : s.workers.get? w with
  | none =>
    have hstep : wcStep items fn s w = s := by
      unfold wcStep
      rw [hw]
    rw [hstep]
    exact ⟨hnext, hslen, hperm, happ, hunapp, hdone⟩
  | some st =>
    cases st with
    | done =>
      have hstep : wcStep items fn s w = s := by
        unfold wcStep
        rw [hw]
      rw [hstep]
      exact ⟨hnext, hslen, hperm, happ, hunapp, hdone⟩
    | idle =>
      by_cases hlt : s.next < items.length
      · have hstep : wcStep items fn s w
            = { s with next := s.next + 1,
                       workers := s.workers.set w (.running s.next) } := by
          unfold wcStep
          rw [hw, if_pos hlt]
        rw [hstep]
        refine ⟨?_, ?_, ?_, ?_, ?_, ?_⟩
        · show s.next + 1 ≤ items.length
          omega
        · exact hslen
        · show (↑s.apps + runMS (s.workers.set w (.running s.next))
            = (↑(List.range (s.next + 1)) : Multiset Nat))
          have h1 := runMS_set s.workers w .idle (.running s.next) hw
          have h2 : runMS (s.workers.set w (.running s.next))
              = runMS s.workers + {s.next} := by
            have h3 : wContrib WStatus.idle = 0 := rfl
            have h4 : wContrib (WStatus.running s.next) = {s.next} := rfl
            rw [h3, h4, add_zero] at h1
            exact h1
          rw [h2, ← add_assoc, hperm, List.range_succ]
          rfl
        · exact happ
        · exact hunapp
        · show WStatus.done ∈ s.workers.set w (.running s.next) → s.next + 1 = items.length
          intro hd
          rcases mem_of_mem_set _ _ hd with h | h
          · exact WStatus.noConfusion h
          · exact absurd (hdone h) (by omega)
      · have hstep : wcStep items fn s w
            = { s with workers := s.workers.set w .done } := by
          unfold wcStep
          rw [hw, if_neg hlt]
        rw [hstep]
        have hnl : s.next = items.length := by omega
        refine ⟨hnext, hslen, ?_, happ, hunapp, fun _ => hnl⟩
        show (↑s.apps + runMS (s.workers.set w .done)
          = (↑(List.range s.next) : Multiset Nat))
        have h1 := runMS_set s.workers w .idle .done hw
        have h2 : runMS (s.workers.set w .done) = runMS s.workers := by
          have h3 : wContrib WStatus.idle = 0 := rfl
          have h4 : wContrib WStatus.done = 0 := rfl
          rw [h3, h4, add_zero, add_zero] at h1
          exact h1
        rw [h2]
        exact hperm
    | running cur =>
      have hcur_mem : cur ∈ runMS s.workers := runMS_mem_of_get _ _ _ hw
      have hcur_range : cur ∈ (↑(List.range s.next) : Multiset Nat) := by
        rw [← hperm]
        exact Multiset.mem_add.mpr (Or.inr hcur_mem)
      have hcur_lt : cur < s.next := List.mem_range.mp (Multiset.mem_coe.mp hcur_range)
      have hcur_len : cur < items.length := by omega
      have hcur_notapp : cur ∉ s.apps := by
        intro hmem
        have hcount := congrArg (Multiset.count cur) hperm
        rw [Multiset.count_add] at hcount
        have hr : Multiset.count cur (↑(List.range s.next) : Multiset Nat) = 1 :=
          Multiset.count_eq_one_of_mem
            (by rw [Multiset.coe_nodup]; exact List.nodup_range s.next) hcur_range
        have h1 : 1 ≤ Multiset.count cur (↑s.apps : Multiset Nat) :=
          Multiset.one_le_count_iff_mem.mpr (Multiset.mem_coe.mpr hmem)
        have h2 : 1 ≤ Multiset.count cur (runMS s.workers) :=
          Multiset.one_le_count_iff_mem.mpr hcur_mem
        omega
      cases hget : items.get? cur with
      | none =>
        rw [List.get?_eq_get hcur_len] at hget
        exact absurd hget (by simp)
      | some a =>
        have hstep : wcStep items fn s w
            = { s with workers := s.workers.set w .idle,
                       slots := match fn a with
                                | some b => s.slots.set cur (some b)
                                | none => s.slots,
                       apps := s.apps ++ [cur] } := by
          unfold wcStep
          rw [hw]
          show (match items.get? cur with
            | some a =>
              { s with
                workers := s.workers.set w WStatus.idle
                slots := match fn a with
                         | some b => s.slots.set cur (some b)
                         | none => s.slots
                apps := s.apps ++ [cur] }
            | none =>
              { s with workers := s.workers.set w WStatus.idle,
                       apps := s.apps ++ [cur] }) = _
          rw [hget]
        rw [hstep]
        have hrun : runMS (s.workers.set w .idle) + {cur} = runMS s.workers := by
          have h1 := runMS_set s.workers w (.running cur) .idle hw
          have h3 : wContrib (WStatus.running cur) = {cur} := rfl
          have h4 : wContrib WStatus.idle = 0 := rfl
          rw [h3, h4, add_zero] at h1
          exact h1
        refine ⟨hnext, ?_, ?_, ?_, ?_, ?_⟩
        · show (match fn a with
            | some b => s.slots.set cur (some b)
            | none => s.slots).length = items.length
          cases fn a <;> simp [hslen]
        · show (↑(s.apps ++ [cur]) + runMS (s.workers.set w .idle)
            = (↑(List.range s.next) : Multiset Nat))
          have hco : (↑(s.apps ++ [cur]) : Multiset Nat) = ↑s.apps + {cur} := rfl
          rw [hco, add_assoc, add_comm ({cur} : Multiset Nat) _, hrun, hperm]
        · intro i hi
          rcases List.mem_append.mp hi with hi | hi
          · have hne : i ≠ cur := fun he => hcur_notapp (he ▸ hi)
            have hx := happ i hi
            show (match fn a with
              | some b => s.slots.set cur (some b)
              | none => s.slots).get? i = some (slotOf items fn i)
            cases hfa : fn a with
            | some b =>
              rw [List.get?_set_ne _ _ (Ne.symm hne)]
              exact hx
            | none => exact hx
          · have hi' : i = cur := by simpa using hi
            subst hi'
            have hexp : slotOf items fn i = fn a := by
              unfold slotOf
              rw [hget]
            show (match fn a with
              | some b => s.slots.set i (some b)
              | none => s.slots).get? i = some (slotOf items fn i)
            cases hfa : fn a with
            | some b =>
              rw [List.get?_set_eq_of_lt _ (by omega : i < s.slots.length),
                hexp, hfa]
            | none =>
              rw [hunapp i hcur_notapp hcur_len, hexp, hfa]
        · intro i hni hlen
          have hni1 : i ∉ s.apps := fun h => hni (List.mem_append.mpr (Or.inl h))
          have hni2 : i ≠ cur := fun h => hni (List.mem_append.mpr (Or.inr (by simp [h])))
          show (match fn a with
            | some b => s.slots.set cur (some b)
            | none => s.slots).get? i = some none
          cases hfa : fn a with
          | some b =>
            rw [List.get?_set_ne _ _ (Ne.symm hni2)]
            exact hunapp i hni1 hlen
          | none => exact hunapp i hni1 hlen
        · show WStatus.done ∈ s.workers.set w .idle → s.next = items.length
          intro hd
          rcases mem_of_mem_set _ _ hd with h | h
          · exact absurd h (by decide)
          · exact hdone h

theorem wcStep_workers_length {α β : Type} (items : List α) (fn : α → Option β)
    (s : WCState β) (w : Nat) :
    (wcStep items fn s w).workers.length = s.workers.length := by
  unfold wcStep
  cases hw : s.workers.get? w with
  | none => rfl
  | some st =>
    cases st with
    | done => rfl
    | idle =>
      by_cases hlt : s.next < items.length
      · rw [if_pos hlt]
        exact List.length_set _ _ _
      · rw [if_neg hlt]
        exact List.length_set _ _ _
    | running cur =>
      cases hget : items.get? cur with
      | none =>
        show (match items.get? cur with
          | some a =>
            { s with
              workers := s.workers.set w WStatus.idle
              slots := match fn a with
                       | some b => s.slots.set cur (some b)
                       | none => s.slots
              apps := s.apps ++ [cur] }
          | none =>
            { s with workers := s.workers.set w WStatus.idle,
                     apps := s.apps ++ [cur] }).workers.length = _
        rw [hget]
        exact List.length_set _ _ _
      | some a =>
        show (match items.get? cur with
          | some a =>
            { s with
              workers := s.workers.set w WStatus.idle
              slots := match fn a with
                       | some b => s.slots.set cur (some b)
                       | none => s.slots
              apps := s.apps ++ [cur] }
          | none =>
            { s with workers := s.workers.set w WStatus.idle,
                     apps := s.apps ++ [cur] }).workers.length = _
        rw [hget]
        exact List.length_set _ _ _

theorem wcFold_inv {α β : Type} (items : List α) (fn : α → Option β) :
    ∀ (sched : List Nat) (s : WCState β), WCInv items fn s →
      WCInv items fn (sched.foldl (wcStep items fn) s) := by
  intro sched
  induction sched with
  | nil => intro s h; exact h
  | cons w ws ih =>
    intro s h
    exact ih _ (wcStep_inv items fn s w h)

theorem wcFold_workers_length {α β : Type} (items : List α) (fn : α → Option β) :
    ∀ (sched : List Nat) (s : WCState β),
      (sched.foldl (wcStep items fn) s).workers.length = s.workers.length := by
  intro sched
  induction sched with
  | nil => intro s; rfl
  | cons w ws ih =>
    intro s
    rw [List.foldl_cons, ih, wcStep_workers_length]

/-- C10.  For every item list, every `limit ≥ 1`, every per-item
function (`fn x = none` models a thrown call), and every complete
schedule of the worker pool (one in which all workers have exited), the
pool has applied `fn` to each item's index exactly once (`apps` is a
permutation of `0 … n-1`), and each result slot holds exactly the
outcome of its own item: `some b` if `fn` succeeded, unwritten
(`undefined`) if its call threw — independent of every other item. -/
theorem C10_withConcurrency (α β : Type) (items : List α) (fn : α → Option β)
    (limit : Nat) (sched : List Nat) (hlim : 1 ≤ limit)
    (hdone : wcDone (wcRun items fn limit sched)) :
    (wcRun items fn limit sched).apps.Perm (List.range items.length)
    ∧ ∀ i (hi : i < items.length),
        (wcRun items fn limit sched).slots.get? i
          = some (fn (items.get ⟨i, hi⟩)) := by
  have hinv : WCInv items fn (wcRun items fn limit sched) :=
    wcFold_inv items fn sched _ (wcInit_inv items fn limit)
  obtain ⟨hnext, hslen, hperm, happ, hunapp, _⟩ := hinv
  have hrun0 : runMS (wcRun items fn limit sched).workers = 0 :=
    runMS_all_done _ hdone
  have hnexteq : (wcRun items fn limit sched).next = items.length := by
    by_cases hn : items.length = 0
    · omega
    · have hwlen : (wcRun items fn limit sched).workers.length
          = min limit items.length := by
        unfold wcRun
        rw [wcFold_workers_length]
        simp [wcInit]
      have hpos : 0 < (wcRun items fn limit sched).workers.length := by
        rw [hwlen]
        omega
      obtain ⟨st, hst⟩ : ∃ st, (wcRun items fn limit sched).workers.get? 0 = some st := by
        cases hq : (wcRun items fn limit sched).workers.get? 0 with
        | none =>
          rw [List.get?_eq_none] at hq
          omega
        | some st => exact ⟨st, rfl⟩
      have hmem : st ∈ (wcRun items fn limit sched).workers := List.get?_mem hst
      have hst_done : st = WStatus.done := hdone st hmem
      have hinv2 : WCInv items fn (wcRun items fn limit sched) :=
        wcFold_inv items fn sched _ (wcInit_inv items fn limit)
      exact hinv2.2.2.2.2.2 (hst_done ▸ hmem)
  constructor
  · apply Multiset.coe_eq_coe.mp
    have := hperm
    rw [hrun0, add_zero, hnexteq] at this
    exact this
  · intro i hi
    have hiapps : i ∈ (wcRun items fn limit sched).apps := by
      have hp : (wcRun items fn limit sched).apps.Perm (List.range items.length) := by
        apply Multiset.coe_eq_coe.mp
        have := hperm
        rw [hrun0, add_zero, hnexteq] at this
        exact this
      exact hp.mem_iff.mpr (List.mem_range.mpr hi)
    have := happ i hiapps
    rw [this]
    unfold slotOf
    rw [List.get?_eq_get hi]

/-- Witness for C10: two items, `limit 2`, the first item's call throws;
under a concrete complete schedule the slots hold `none` (unwritten) and
`some 20` respectively, and both indices were applied exactly once. -/
theorem C10_withConcurrency_witness :
    (wcRun [1, 2] (fun x => if x = 1 then none else some (x * 10)) 2
        [0, 1, 0, 1, 0, 1]).apps.Perm (List.range 2)
    ∧ ∀ i (hi : i < ([1, 2] : List Nat).length),
        (wcRun [1, 2] (fun x => if x = 1 then none else some (x * 10)) 2
            [0, 1, 0, 1, 0, 1]).slots.get? i
          = some ((fun x => if x = 1 then none else some (x * 10))
              (([1, 2] : List Nat).get ⟨i, hi⟩)) :=
  C10_withConcurrency Nat Nat [1, 2] (fun x => if x = 1 then none else some (x * 10)) 2
    [0, 1, 0, 1, 0, 1] (by omega)
    (by unfold wcDone; decide)

/-! ## C1: the resumable job equals one unbounded pass.
First, how `fetchAirtableChunk` behaves against `upOfPages`. -/

theorem encCur_ne_empty {i : Nat} (h : 1 ≤ i) : encCur i ≠ "" := by
  intro he
  have hd : List.replicate i 'c' = ([] : List Char) := congrArg String.data he
  have := congrArg List.length hd
  simp at this
  omega

theorem cursorOf_pos {i : Nat} (h : 1 ≤ i) : cursorOf i = some (encCur i) := by
  unfold cursorOf
  simp [Nat.one_le_iff_ne_zero.mp h]

theorem decCur_cursorOf (i : Nat) : decCur (cursorOf i) = i := by
  unfold cursorOf
  by_cases h : i = 0
  · simp [h, decCur]
  · simp [h, decCur, encCur]

theorem truthy_cursorOf (i : Nat) : truthyCursor (cursorOf i) = cursorOf i := by
  by_cases h : i = 0
  · simp [cursorOf, h, truthyCursor]
  · rw [cursorOf_pos (Nat.one_le_iff_ne_zero.mpr h)]
    simp [truthyCursor, encCur_ne_empty (Nat.one_le_iff_ne_zero.mpr h)]

theorem up_cursorOf (pages : List (List AirRec)) (i : Nat) :
    upOfPages pages (cursorOf i)
      = { status := 200, records := pages.getD i [],
          offset := if i + 1 < pages.length then some (encCur (i + 1)) else none,
          body := "" } := by
  simp only [upOfPages, decCur_cursorOf]

theorem respOk_200 (r : List AirRec) (o : Option String) (b : String) :
    respOk ⟨200, r, o, b⟩ = true := rfl

theorem drop_take_one_flatten (pages : List (List AirRec)) {i : Nat}
    (h : i < pages.length) :
    ((pages.drop i).take 1).flatten = pages.getD i [] := by
  rw [List.drop_eq_getElem_cons h, List.getD_eq_getElem pages [] h,
    List.take_succ_cons, List.take_zero, List.flatten_cons, List.flatten_nil,
    List.append_nil]

/-- Against the deterministic upstream, a fetch from page `i` with
budget `F` eats `pagesEaten F L i` pages: it returns their records in
order, a continuation token iff pages remain, and a request count equal
to the pages eaten. -/
theorem fetchLoop_pages (pages : List (List AirRec)) (table : String) :
    ∀ (F i : Nat) (acc : List AirRec) (used : Nat) (reqs : List (Option String)),
      1 ≤ F → (i = 0 ∨ i < pages.length) →
      ∃ reqs',
        fetchLoop (upOfPages pages) table F (cursorOf i) acc used reqs
          = .ok ⟨acc ++ ((pages.drop i).take (pagesEaten F pages.length i)).flatten,
                 if i + pagesEaten F pages.length i < pages.length
                 then some (encCur (i + pagesEaten F pages.length i)) else none,
                 used + pagesEaten F pages.length i,
                 reqs'⟩ := by
  intro F
  induction F with
  | zero => intro i acc used reqs hF _; omega
  | succ F ih =>
    intro i acc used reqs _ hi
    by_cases hcont : i + 1 < pages.length
    · have hi' : i < pages.length := by omega
      have hne1 : encCur (i + 1) ≠ "" := encCur_ne_empty (by omega)
      have hstep : fetchLoop (upOfPages pages) table (F + 1) (cursorOf i) acc used reqs
          = fetchLoop (upOfPages pages) table F (cursorOf (i + 1))
              (acc ++ pages.getD i []) (used + 1) (reqs ++ [cursorOf i]) := by
        rw [cursorOf_pos (show 1 ≤ i + 1 by omega)]
        simp only [fetchLoop, truthy_cursorOf, up_cursorOf, respOk_200, if_true, hcont]
        simp [truthyCursor, hne1]
      rw [hstep]
      rcases Nat.eq_zero_or_pos F with hF0 | hF1
      · subst hF0
        refine ⟨reqs ++ [cursorOf i], ?_⟩
        have hk : pagesEaten 1 pages.length i = 1 := by unfold pagesEaten; omega
        rw [hk, drop_take_one_flatten pages hi', if_pos hcont,
          cursorOf_pos (show 1 ≤ i + 1 by omega)]
        rfl
      · obtain ⟨reqs', hrec⟩ := ih (i + 1) (acc ++ pages.getD i []) (used + 1)
          (reqs ++ [cursorOf i]) hF1 (Or.inr hcont)
        refine ⟨reqs', ?_⟩
        rw [hrec]
        have hdrop : pages.drop i = pages.getD i [] :: pages.drop (i + 1) := by
          rw [List.drop_eq_getElem_cons hi', List.getD_eq_getElem pages [] hi']
        have hk : pagesEaten (F + 1) pages.length i
            = pagesEaten F pages.length (i + 1) + 1 := by
          unfold pagesEaten; omega
        rw [hk]
        have harith : i + (pagesEaten F pages.length (i + 1) + 1)
            = (i + 1) + pagesEaten F pages.length (i + 1) := by omega
        rw [harith, hdrop, List.take_succ_cons, List.flatten_cons, ← List.append_assoc]
        have hused : used + (pagesEaten F pages.length (i + 1) + 1)
            = used + 1 + pagesEaten F pages.length (i + 1) := by omega
        rw [hused]
    · by_cases hiL : i < pages.length
      · -- last page: the response has no continuation offset
        refine ⟨reqs ++ [cursorOf i], ?_⟩
        have hk : pagesEaten (F + 1) pages.length i = 1 := by unfold pagesEaten; omega
        rw [hk, drop_take_one_flatten pages hiL, if_neg (by omega)]
        simp only [fetchLoop, truthy_cursorOf, up_cursorOf, respOk_200, if_true]
        simp [hcont, truthyCursor]
      · -- empty upstream: `i = 0` and no pages at all
        have hi0 : i = 0 := by tauto
        have hnil : pages = [] := List.length_eq_zero.mp (by omega)
        subst hi0; subst hnil
        refine ⟨reqs ++ [cursorOf 0], ?_⟩
        have hk : pagesEaten (F + 1) 0 0 = 1 := by unfold pagesEaten; omega
        simp only [List.length_nil] at hk ⊢
        rw [hk]
        simp only [fetchLoop, truthy_cursorOf, up_cursorOf, respOk_200, if_true]
        simp [truthyCursor]

/-! ## C1: distinctness of the job's store keys -/

theorem strEq_of_data {a b : String} (h : a.data = b.data) : a = b := by
  cases a; cases b; cases h; rfl

theorem strAppend_assoc (a b c : String) : a ++ b ++ c = a ++ (b ++ c) := by
  apply strEq_of_data
  simp [strData_append]

theorem listStarts_append_self (l m : List Char) : listStarts (l ++ m) l = true := by
  induction l with
  | nil => cases m <;> rfl
  | cons c cs ih => simp [listStarts, ih]

theorem ne_of_not_tmp {objectKey rest : String}
    (h : strStarts objectKey "orgs/tmp/" = false) :
    objectKey ≠ "orgs/tmp/" ++ rest := by
  intro he
  rw [he] at h
  unfold strStarts at h
  rw [strData_append, listStarts_append_self] at h
  simp at h

theorem objectKey_ne_stateKey {objectKey j : String}
    (h : strStarts objectKey "orgs/tmp/" = false) :
    objectKey ≠ stateKeyOf j := by
  unfold stateKeyOf
  rw [strAppend_assoc]
  exact ne_of_not_tmp h

theorem objectKey_ne_chunkKey {objectKey j : String} (n : Nat)
    (h : strStarts objectKey "orgs/tmp/" = false) :
    objectKey ≠ chunkKeyOf j n := by
  unfold chunkKeyOf
  rw [strAppend_assoc, strAppend_assoc, strAppend_assoc]
  exact ne_of_not_tmp h

theorem stateKey_ne_chunkKey (j : String) (n : Nat) :
    stateKeyOf j ≠ chunkKeyOf j n := by
  intro he
  have hd := congrArg String.data he
  unfold stateKeyOf chunkKeyOf at hd
  simp only [strData_append, List.append_assoc] at hd
  have h1 := List.append_cancel_left hd
  have h2 := List.append_cancel_left h1
  simp at h2

/-! ## C1: `natToStr`/`padStart4` render distinct chunk numbers to
distinct keys -/

theorem natToStrGo_digits :
    ∀ (fuel n : Nat) (acc : List Char), n ≤ fuel →
      natToStrGo fuel n acc = ((Nat.digits 10 n).reverse.map digitChar) ++ acc := by
  intro fuel
  induction fuel with
  | zero =>
    intro n acc hn
    interval_cases n
    simp [natToStrGo]
  | succ fuel ih =>
    intro n acc hn
    rcases Nat.eq_zero_or_pos n with h0 | h1
    · subst h0
      simp [natToStrGo]
    · obtain ⟨n', rfl⟩ : ∃ n', n = n' + 1 := ⟨n - 1, by omega⟩
      show natToStrGo fuel ((n' + 1) / 10) (digitChar ((n' + 1) % 10) :: acc) = _
      have hdiv : (n' + 1) / 10 < n' + 1 := Nat.div_lt_self (Nat.succ_pos n') (by norm_num)
      rw [ih ((n' + 1) / 10) _ (by omega)]
      rw [Nat.digits_def' (by norm_num : (1:Nat) < 10) h1]
      rw [List.reverse_cons, List.map_append]
      simp

theorem natToStr_data {n : Nat} (h : 1 ≤ n) :
    (natToStr n).data = (Nat.digits 10 n).reverse.map digitChar := by
  unfold natToStr
  rw [if_neg (show ¬(n = 0) by omega), strMk_data,
    natToStrGo_digits n n [] (le_refl n), List.append_nil]

theorem digitChar_ne_zero {d : Nat} (h1 : d < 10) (h2 : d ≠ 0) : digitChar d ≠ '0' := by
  interval_cases d <;> first | omega | decide

theorem digitChar_inj {a b : Nat} (ha : a < 10) (hb : b < 10)
    (h : digitChar a = digitChar b) : a = b := by
  revert h
  interval_cases a <;> interval_cases b <;> decide

theorem map_digitChar_inj : ∀ (l1 l2 : List Nat), (∀ d ∈ l1, d < 10) →
    (∀ d ∈ l2, d < 10) → l1.map digitChar = l2.map digitChar → l1 = l2
  | [], [], _, _, _ => rfl
  | [], _ :: _, _, _, h => by simp at h
  | _ :: _, [], _, _, h => by simp at h
  | a :: l1, b :: l2, h1, h2, h => by
    simp only [List.map_cons, List.cons.injEq] at h
    have ha := h1 a (List.mem_cons_self a l1)
    have hb := h2 b (List.mem_cons_self b l2)
    have hab := digitChar_inj ha hb h.1
    subst hab
    rw [map_digitChar_inj l1 l2 (fun d hd => h1 d (List.mem_cons_of_mem _ hd))
      (fun d hd => h2 d (List.mem_cons_of_mem _ hd)) h.2]

theorem natToStr_inj {a b : Nat} (ha : 1 ≤ a) (hb : 1 ≤ b)
    (h : natToStr a = natToStr b) : a = b := by
  have hd := congrArg String.data h
  rw [natToStr_data ha, natToStr_data hb] at hd
  have h1 : ∀ d ∈ (Nat.digits 10 a).reverse, d < 10 := fun d hdm =>
    Nat.digits_lt_base (by norm_num) (List.mem_reverse.mp hdm)
  have h2 : ∀ d ∈ (Nat.digits 10 b).reverse, d < 10 := fun d hdm =>
    Nat.digits_lt_base (by norm_num) (List.mem_reverse.mp hdm)
  have hrev := map_digitChar_inj _ _ h1 h2 hd
  have hdig := List.reverse_injective hrev
  calc a = Nat.ofDigits 10 (Nat.digits 10 a) := (Nat.ofDigits_digits 10 a).symm
    _ = Nat.ofDigits 10 (Nat.digits 10 b) := by rw [hdig]
    _ = b := Nat.ofDigits_digits 10 b

theorem natToStr_head_ne_zero {n : Nat} (h : 1 ≤ n) :
    ∀ c, (natToStr n).data.head? = some c → c ≠ '0' := by
  intro c hc
  rw [natToStr_data h, List.head?_map, List.head?_reverse] at hc
  have hne : Nat.digits 10 n ≠ [] := Nat.digits_ne_nil_iff_ne_zero.mpr (by omega)
  rw [List.getLast?_eq_getLast _ hne] at hc
  have hlast10 : (Nat.digits 10 n).getLast hne < 10 :=
    Nat.digits_lt_base (by norm_num) (List.getLast_mem hne)
  have hlast0 : (Nat.digits 10 n).getLast hne ≠ 0 :=
    Nat.getLast_digit_ne_zero 10 (by omega)
  have : c = digitChar ((Nat.digits 10 n).getLast hne) := by
    simp [Option.map] at hc
    exact hc.symm
  rw [this]
  exact digitChar_ne_zero hlast10 hlast0

theorem dropZeros_pad (s : String) :
    (padStart4 s).data.dropWhile (fun c => c = '0')
      = s.data.dropWhile (fun c => c = '0') := by
  unfold padStart4
  rw [strMk_data]
  apply dropWhile_append_all
  intro c hc
  simp [List.eq_of_mem_replicate hc]

theorem dropZeros_natToStr {n : Nat} (h : 1 ≤ n) :
    (natToStr n).data.dropWhile (fun c => c = '0') = (natToStr n).data := by
  cases hq : (natToStr n).data with
  | nil => rfl
  | cons c cs =>
    have hc : c ≠ '0' := natToStr_head_ne_zero h c (by rw [hq]; rfl)
    exact dropWhile_cons_of_neg cs (by simp [hc])

theorem padStart4_natToStr_inj {a b : Nat} (ha : 1 ≤ a) (hb : 1 ≤ b)
    (h : padStart4 (natToStr a) = padStart4 (natToStr b)) : a = b := by
  apply natToStr_inj ha hb
  apply strEq_of_data
  have hd : (padStart4 (natToStr a)).data.dropWhile (fun c => c = '0')
      = (padStart4 (natToStr b)).data.dropWhile (fun c => c = '0') := by rw [h]
  rw [dropZeros_pad, dropZeros_pad, dropZeros_natToStr ha, dropZeros_natToStr hb] at hd
  exact hd

theorem chunkKeyOf_inj (j : String) {a b : Nat} (ha : 1 ≤ a) (hb : 1 ≤ b)
    (h : chunkKeyOf j a = chunkKeyOf j b) : a = b := by
  apply padStart4_natToStr_inj ha hb
  apply strEq_of_data
  have hd := congrArg String.data h
  unfold chunkKeyOf at hd
  simp only [strData_append, List.append_assoc] at hd
  have h1 := List.append_cancel_left hd
  have h2 := List.append_cancel_left h1
  have h3 := List.append_cancel_left h2
  exact List.append_cancel_right h3

/-! ## C1: assembling chunk contents -/

theorem featsUpTo_add (env : JobEnv) (pages : List (List AirRec)) (a k : Nat) :
    featsUpTo env pages (a + k)
      = featsUpTo env pages a
        ++ OrgsJob.recordsToFeatures (fLatOf env) (fLonOf env)
            (((pages.drop a).take k).flatten) := by
  unfold featsUpTo
  rw [List.take_add, List.flatten_append, orgsJob_r2f_append]

theorem featsUpTo_zero (env : JobEnv) (pages : List (List AirRec)) :
    featsUpTo env pages 0 = [] := rfl

theorem featsUpTo_all (env : JobEnv) (pages : List (List AirRec)) {k : Nat}
    (h : pages.length ≤ k) : featsUpTo env pages k = featsAll env pages := by
  unfold featsUpTo featsAll
  rw [List.take_of_length_le h]

theorem chunkFeats_concat (env : JobEnv) (pages : List (List AirRec)) (N : Nat) :
    ∀ m : Nat, ((List.range' 1 m).map (fun c => chunkFeats env pages N c)).flatten
      = featsUpTo env pages (m * N) := by
  intro m
  induction m with
  | zero => simp [featsUpTo, OrgsJob.recordsToFeatures]
  | succ m ih =>
    rw [List.range'_concat, List.map_append, List.flatten_append, ih]
    have h1 : 1 + 1 * m = m + 1 := by omega
    rw [h1]
    have h2 : (m + 1) * N = m * N + N := by ring
    rw [h2, featsUpTo_add]
    simp [chunkFeats]

/-- `collectChunks` over the chunk keys `a .. a+m-1`: it returns the
chunk contents concatenated in order and leaves every other key of the
store untouched. -/
theorem collectChunks_spec (j : String) (env : JobEnv) (pages : List (List AirRec))
    (N : Nat) :
    ∀ (m a : Nat) (s : Store), 1 ≤ a →
      (∀ c, a ≤ c → c < a + m → s (chunkKeyOf j c)
          = some (.chunkV (chunkFeats env pages N c))) →
      ∃ s', collectChunks s ((List.range' a m).map (chunkKeyOf j))
          = (s', ((List.range' a m).map (fun c => chunkFeats env pages N c)).flatten)
        ∧ ∀ k, (∀ c, a ≤ c → c < a + m → k ≠ chunkKeyOf j c) → s' k = s k := by
  intro m
  induction m with
  | zero =>
    intro a s _ _
    exact ⟨s, rfl, fun k _ => rfl⟩
  | succ m ih =>
    intro a s ha hchunks
    have hsa : s (chunkKeyOf j a) = some (.chunkV (chunkFeats env pages N a)) :=
      hchunks a (le_refl a) (by omega)
    obtain ⟨s', hcoll, hother⟩ := ih (a + 1) (delStore s (chunkKeyOf j a)) (by omega)
      (fun c hc1 hc2 => by
        rw [delStore_other s (chunkKeyOf j a) (fun he =>
          by have := chunkKeyOf_inj j (show 1 ≤ c by omega) ha he; omega)]
        exact hchunks c (by omega) (by omega))
    refine ⟨s', ?_, ?_⟩
    · rw [List.range'_succ, List.map_cons, List.map_cons, List.flatten_cons]
      show collectChunks s (chunkKeyOf j a :: (List.range' (a + 1) m).map (chunkKeyOf j)) = _
      unfold collectChunks
      rw [hsa]
      rw [hcoll]
    · intro k hk
      rw [hother k (fun c hc1 hc2 => hk c (by omega) (by omega))]
      exact delStore_other s (chunkKeyOf j a) (fun he => hk a (le_refl a) (by omega) he)

/-! ## C1: behaviour of one job step against the deterministic upstream -/

theorem step_empty_done (env : JobEnv) (pages : List (List AirRec))
    (objectKey j : String) (N : Nat)
    (hN : 1 ≤ N) (hLN : pages.length ≤ N)
    (hsafe : isSafeKey objectKey = true) (hok : objectKey ≠ "") :
    processChunkCore (upOfPages pages) env objectKey N ⟨some j, none⟩ j emptyStore
      = .ok (delStore (putStore emptyStore objectKey (.docV (featsAll env pages)))
              (stateKeyOf j),
             .completed j (featsAll env pages).length objectKey) := by
  obtain ⟨reqs', hfetch⟩ := fetchLoop_pages pages
    (orDefault env.ORG_TABLE_NAME "Master List") N 0 [] 0 [] hN (Or.inl rfl)
  have hnc : ¬ (0 + pagesEaten N pages.length 0 < pages.length) := by
    unfold pagesEaten; omega
  have htk : pages.length ≤ pagesEaten N pages.length 0 := by
    unfold pagesEaten; omega
  rw [if_neg hnc, List.drop_zero, List.take_of_length_le htk, List.nil_append] at hfetch
  have hc0 : cursorOf 0 = none := rfl
  rw [hc0] at hfetch
  unfold processChunkCore
  simp only [hsafe, Bool.not_true, Bool.false_eq_true, if_false, jobIdOf, ite_self,
    readState, emptyStore, Option.getD_none, freshState, ne_eq, hok, not_false_eq_true,
    if_true, truthyCursor, fetchAirtableChunk]
  rw [hfetch]
  simp only [finalizeStep, collectChunks, List.nil_append, Nat.zero_add, featsAll,
    fLatOf, fLonOf]

theorem step_empty_progress (env : JobEnv) (pages : List (List AirRec))
    (objectKey j : String) (N : Nat)
    (hN : 1 ≤ N) (hNL : N < pages.length)
    (hsafe : isSafeKey objectKey = true) (hok : objectKey ≠ "") :
    processChunkCore (upOfPages pages) env objectKey N ⟨some j, none⟩ j emptyStore
      = .ok (putStore
              (putStore emptyStore (chunkKeyOf j 1) (.chunkV (chunkFeats env pages N 1)))
              (stateKeyOf j) (.stateV (stAfter env pages objectKey j N 1)),
             .inProgress j (encCur N) (chunkFeats env pages N 1).length
               (featsUpTo env pages N).length N objectKey) := by
  obtain ⟨reqs', hfetch⟩ := fetchLoop_pages pages
    (orDefault env.ORG_TABLE_NAME "Master List") N 0 [] 0 [] hN (Or.inl rfl)
  have hkN : pagesEaten N pages.length 0 = N := by unfold pagesEaten; omega
  rw [hkN] at hfetch
  simp only [Nat.zero_add] at hfetch
  rw [if_pos hNL, List.drop_zero, List.nil_append] at hfetch
  have hc0 : cursorOf 0 = none := rfl
  rw [hc0] at hfetch
  unfold processChunkCore
  simp only [hsafe, Bool.not_true, Bool.false_eq_true, if_false, jobIdOf, ite_self,
    readState, emptyStore, Option.getD_none, freshState, ne_eq, hok, not_false_eq_true,
    if_true, truthyCursor, fetchAirtableChunk]
  rw [hfetch]
  simp only [truthyCursor, encCur_ne_empty hN, Nat.zero_add, List.nil_append,
    if_false]
  simp only [stAfter, chunkFeats, featsUpTo, fLatOf, fLonOf, Nat.one_mul,
    Nat.sub_self, Nat.zero_mul, List.drop_zero, List.range'_one, List.map_cons,
    List.map_nil, Nat.add_zero]

theorem storeInv_put (env : JobEnv) (pages : List (List AirRec))
    (objectKey j : String) (N m : Nat) (s : Store)
    (hprev : ∀ c, 1 ≤ c → c ≤ m → s (chunkKeyOf j c)
        = some (.chunkV (chunkFeats env pages N c)))
    (hm1 : (m + 1) * N < pages.length) :
    storeInv env pages objectKey j N (m + 1)
      (putStore
        (putStore s (chunkKeyOf j (m + 1)) (.chunkV (chunkFeats env pages N (m + 1))))
        (stateKeyOf j) (.stateV (stAfter env pages objectKey j N (m + 1)))) := by
  refine ⟨by omega, hm1, putStore_self _ _ _, ?_⟩
  intro c hc1 hc2
  rw [putStore_other _ _ _ (Ne.symm (stateKey_ne_chunkKey j c))]
  by_cases hcm : c = m + 1
  · subst hcm; exact putStore_self _ _ _
  · rw [putStore_other _ _ _ (fun he => hcm (chunkKeyOf_inj j hc1 (by omega) he))]
    exact hprev c hc1 (by omega)

theorem step_inv_progress (env : JobEnv) (pages : List (List AirRec))
    (objectKey j : String) (N m : Nat) (s : Store)
    (hN : 1 ≤ N)
    (hsafe : isSafeKey objectKey = true) (hok : objectKey ≠ "")
    (hinv : storeInv env pages objectKey j N m s)
    (hcont : m * N + N < pages.length) :
    processChunkCore (upOfPages pages) env objectKey N ⟨some j, none⟩ j s
      = .ok (putStore
              (putStore s (chunkKeyOf j (m + 1)) (.chunkV (chunkFeats env pages N (m + 1))))
              (stateKeyOf j) (.stateV (stAfter env pages objectKey j N (m + 1))),
             .inProgress j (encCur (m * N + N)) (chunkFeats env pages N (m + 1)).length
               (featsUpTo env pages (m * N + N)).length N objectKey) := by
  obtain ⟨hm, hmL, hstate, hchunks⟩ := hinv
  have hmN : 1 ≤ m * N := Nat.mul_pos hm hN
  obtain ⟨reqs', hfetch⟩ := fetchLoop_pages pages
    (orDefault env.ORG_TABLE_NAME "Master List") N (m * N) [] 0 [] hN (Or.inr hmL)
  have hkN : pagesEaten N pages.length (m * N) = N := by unfold pagesEaten; omega
  rw [hkN, if_pos hcont, List.nil_append, cursorOf_pos hmN] at hfetch
  have htot : (OrgsJob.recordsToFeatures (orDefault env.FIELD_LAT "Latitude")
        (orDefault env.FIELD_LON "Longitude") ((pages.take (m * N + N)).flatten)).length
      = (OrgsJob.recordsToFeatures (orDefault env.FIELD_LAT "Latitude")
          (orDefault env.FIELD_LON "Longitude") ((pages.take (m * N)).flatten)).length
        + (OrgsJob.recordsToFeatures (orDefault env.FIELD_LAT "Latitude")
            (orDefault env.FIELD_LON "Longitude")
            (((pages.drop (m * N)).take N).flatten)).length := by
    rw [List.take_add, List.flatten_append, orgsJob_r2f_append, List.length_append]
  have hr : List.range' 1 (m + 1) = List.range' 1 m ++ [m + 1] := by
    rw [List.range'_concat]
    norm_num [Nat.add_comm]
  unfold processChunkCore
  simp only [hsafe, Bool.not_true, Bool.false_eq_true, if_false, jobIdOf, ite_self,
    readState, hstate, Option.getD_some, stAfter, ne_eq, hok, not_false_eq_true,
    if_true, truthyCursor, encCur_ne_empty hmN, fetchAirtableChunk, fLatOf, fLonOf]
  rw [hfetch]
  simp only [truthyCursor, encCur_ne_empty (show 1 ≤ m * N + N by omega), if_false]
  simp only [stAfter, chunkFeats, featsUpTo, fLatOf, fLonOf, Nat.succ_mul,
    Nat.add_sub_cancel, hr, List.map_append, List.map_cons, List.map_nil,
    Nat.zero_add]
  rw [htot]

theorem step_inv_done (env : JobEnv) (pages : List (List AirRec))
    (objectKey j : String) (N m : Nat) (s : Store)
    (hN : 1 ≤ N)
    (hsafe : isSafeKey objectKey = true) (hok : objectKey ≠ "")
    (htmp : strStarts objectKey "orgs/tmp/" = false)
    (hinv : storeInv env pages objectKey j N m s)
    (hend : pages.length ≤ m * N + N) :
    ∃ s', processChunkCore (upOfPages pages) env objectKey N ⟨some j, none⟩ j s
        = .ok (s', .completed j (featsAll env pages).length objectKey)
      ∧ s' objectKey = some (.docV (featsAll env pages)) := by
  obtain ⟨hm, hmL, hstate, hchunks⟩ := hinv
  have hmN : 1 ≤ m * N := Nat.mul_pos hm hN
  obtain ⟨reqs', hfetch⟩ := fetchLoop_pages pages
    (orDefault env.ORG_TABLE_NAME "Master List") N (m * N) [] 0 [] hN (Or.inr hmL)
  have hkE : pagesEaten N pages.length (m * N) = pages.length - m * N := by
    unfold pagesEaten; omega
  rw [hkE, if_neg (by omega), List.nil_append, cursorOf_pos hmN] at hfetch
  obtain ⟨s1, hcoll, hother⟩ := collectChunks_spec j env pages N m 1 s (le_refl 1)
    (fun c hc1 hc2 => hchunks c hc1 (by omega))
  rw [chunkFeats_concat] at hcoll
  have harith : m * N + (pages.length - m * N) = pages.length := by omega
  have hall : OrgsJob.recordsToFeatures (orDefault env.FIELD_LAT "Latitude")
        (orDefault env.FIELD_LON "Longitude") ((pages.take (m * N)).flatten)
      ++ OrgsJob.recordsToFeatures (orDefault env.FIELD_LAT "Latitude")
          (orDefault env.FIELD_LON "Longitude")
          (((pages.drop (m * N)).take (pages.length - m * N)).flatten)
      = OrgsJob.recordsToFeatures (orDefault env.FIELD_LAT "Latitude")
          (orDefault env.FIELD_LON "Longitude") pages.flatten := by
    rw [← orgsJob_r2f_append, ← List.flatten_append, ← List.take_add, harith,
      List.take_length]
  have hcount := congrArg List.length hall
  rw [List.length_append] at hcount
  refine ⟨delStore (putStore s1 objectKey (.docV (featsAll env pages))) (stateKeyOf j),
    ?_, ?_⟩
  · unfold processChunkCore
    simp only [hsafe, Bool.not_true, Bool.false_eq_true, if_false, jobIdOf, ite_self,
      readState, hstate, Option.getD_some, stAfter, ne_eq, hok, not_false_eq_true,
      if_true, truthyCursor, encCur_ne_empty hmN, fetchAirtableChunk, fLatOf, fLonOf]
    rw [hfetch]
    simp only [truthyCursor, finalizeStep, hcoll, featsUpTo, featsAll, fLatOf, fLonOf]
    rw [hall, hcount]
  · rw [delStore_other _ _ (objectKey_ne_stateKey htmp), putStore_self]

theorem runSteps_from_inv (env : JobEnv) (pages : List (List AirRec))
    (objectKey j : String) (N : Nat)
    (hN : 1 ≤ N) (hsafe : isSafeKey objectKey = true) (hok : objectKey ≠ "")
    (htmp : strStarts objectKey "orgs/tmp/" = false) :
    ∀ (fuel m : Nat) (s : Store),
      storeInv env pages objectKey j N m s →
      pages.length - m * N ≤ fuel →
      ∃ sM, runSteps (upOfPages pages) env objectKey N j fuel s
          = .ok (sM, (featsAll env pages).length)
        ∧ sM objectKey = some (.docV (featsAll env pages)) := by
  intro fuel
  induction fuel with
  | zero =>
    intro m s hinv hfuel
    obtain ⟨hm, hmL, _, _⟩ := hinv
    omega
  | succ fuel ih =>
    intro m s hinv hfuel
    by_cases hcont : m * N + N < pages.length
    · have hstep := step_inv_progress env pages objectKey j N m s hN hsafe hok hinv hcont
      have hmul : (m + 1) * N = m * N + N := Nat.succ_mul m N
      have hinv' := storeInv_put env pages objectKey j N m s
        (fun c hc1 hc2 => hinv.2.2.2 c hc1 hc2) (by omega)
      obtain ⟨sM, hrun, hdoc⟩ := ih (m + 1) _ hinv' (by omega)
      refine ⟨sM, ?_, hdoc⟩
      simp only [runSteps, hstep]
      exact hrun
    · obtain ⟨s', heq, hdoc⟩ := step_inv_done env pages objectKey j N m s hN hsafe hok
        htmp hinv (by omega)
      refine ⟨s', ?_, hdoc⟩
      simp only [runSteps, heq]

/-- C1.  For every fixed upstream page sequence, every per-step page
budget `N ≥ 1`, every safe non-empty object key outside the job's
`orgs/tmp/` scratch space and every job id: driving the checkpointed
step to completion with the persisted `jobId` (`runSteps`) reports the
same total feature count and publishes the same FeatureCollection
content at the object key as one single invocation whose page budget
covers the whole upstream. -/
theorem C1_resumable_equiv (env : JobEnv) (pages : List (List AirRec))
    (objectKey j : String) (N : Nat)
    (hN : 1 ≤ N)
    (hsafe : isSafeKey objectKey = true) (hok : objectKey ≠ "")
    (htmp : strStarts objectKey "orgs/tmp/" = false) :
    ∃ sM sS,
      runSteps (upOfPages pages) env objectKey N j (pages.length + 1) emptyStore
        = .ok (sM, (featsAll env pages).length)
      ∧ processChunkCore (upOfPages pages) env objectKey (pages.length + 1)
          ⟨some j, none⟩ j emptyStore
        = .ok (sS, .completed j (featsAll env pages).length objectKey)
      ∧ sM objectKey = some (.docV (featsAll env pages))
      ∧ sS objectKey = some (.docV (featsAll env pages)) := by
  have hsingle := step_empty_done env pages objectKey j (pages.length + 1)
    (by omega) (by omega) hsafe hok
  have hsdoc : (delStore (putStore emptyStore objectKey (.docV (featsAll env pages)))
      (stateKeyOf j)) objectKey = some (.docV (featsAll env pages)) := by
    rw [delStore_other _ _ (objectKey_ne_stateKey htmp), putStore_self]
  by_cases hNL : N < pages.length
  · have hstep1 := step_empty_progress env pages objectKey j N hN hNL hsafe hok
    have hinv1 : storeInv env pages objectKey j N 1
        (putStore
          (putStore emptyStore (chunkKeyOf j 1) (.chunkV (chunkFeats env pages N 1)))
          (stateKeyOf j) (.stateV (stAfter env pages objectKey j N 1))) := by
      have := storeInv_put env pages objectKey j N 0 emptyStore
        (fun c hc1 hc2 => absurd (le_trans hc1 hc2) (by omega))
        (by omega)
      simpa using this
    obtain ⟨sM, hrun, hdoc⟩ := runSteps_from_inv env pages objectKey j N hN hsafe hok
      htmp pages.length 1 _ hinv1 (by omega)
    refine ⟨sM, _, ?_, hsingle, hdoc, hsdoc⟩
    simp only [runSteps, hstep1]
    exact hrun
  · obtain ⟨sM1, hrun1⟩ : ∃ sM1,
        runSteps (upOfPages pages) env objectKey N j (pages.length + 1) emptyStore
          = .ok (sM1, (featsAll env pages).length)
          ∧ sM1 objectKey = some (.docV (featsAll env pages)) := by
      have hdone := step_empty_done env pages objectKey j N hN (by omega) hsafe hok
      refine ⟨_, ?_, hsdoc⟩
      simp only [runSteps, hdone]
    exact ⟨sM1, _, hrun1.1, hsingle, hrun1.2, hsdoc⟩

/-- Witness for C1: a two-page upstream, per-step budget 1 (so the
multi-step run checkpoints), the default object key and job id `j1`;
every hypothesis is discharged at these concrete values. -/
theorem C1_resumable_equiv_witness :
    ∃ sM sS,
      runSteps (upOfPages [[⟨"recA", []⟩], [⟨"recB", []⟩]]) ⟨"", "", "", "", .null⟩
        "organization_map.geojson" 1 "j1"
        (([[⟨"recA", []⟩], [⟨"recB", []⟩]] : List (List AirRec)).length + 1) emptyStore
        = .ok (sM,
            (featsAll ⟨"", "", "", "", .null⟩ [[⟨"recA", []⟩], [⟨"recB", []⟩]]).length)
      ∧ processChunkCore (upOfPages [[⟨"recA", []⟩], [⟨"recB", []⟩]])
          ⟨"", "", "", "", .null⟩ "organization_map.geojson"
          (([[⟨"recA", []⟩], [⟨"recB", []⟩]] : List (List AirRec)).length + 1)
          ⟨some "j1", none⟩ "j1" emptyStore
        = .ok (sS, .completed "j1"
            (featsAll ⟨"", "", "", "", .null⟩ [[⟨"recA", []⟩], [⟨"recB", []⟩]]).length
            "organization_map.geojson")
      ∧ sM "organization_map.geojson"
          = some (.docV (featsAll ⟨"", "", "", "", .null⟩
              [[⟨"recA", []⟩], [⟨"recB", []⟩]]))
      ∧ sS "organization_map.geojson"
          = some (.docV (featsAll ⟨"", "", "", "", .null⟩
              [[⟨"recA", []⟩], [⟨"recB", []⟩]])) :=
  C1_resumable_equiv ⟨"", "", "", "", .null⟩ [[⟨"recA", []⟩], [⟨"recB", []⟩]]
    "organization_map.geojson" "j1" 1 (by omega) (by rfl) (by decide) (by rfl)
